import Mathlib

/-!
# Verification of the ghw snapshot capture / expand subsystem

A shallow embedding, in Lean 4, of the snapshot subsystem of the
go-hardware/ghw repository: the PCI bus walk (`pciGlobs`,
`scanPCIDeviceRoot`, `isPCIBridge`, `findPCIEntryFromPath`), the
device-class cloner (`cloneContentByClass`, `netGlobs`, `gpuGlobs`), the
snapshotter staging/packing pipeline (`copyFile`, `copyLink`,
`copyPseudoFile`, `copyFileGlobs`, `createSnapshot`) and the archive
expander (`Expand`, `untar`, `isEmptyDir`).

Paths are modelled as lists of segments (`Path`); the `/`-separated Go
strings correspond to their segment lists.  Filesystems touched by the
expander and the snapshotter's staging side are modelled as finite
association lists from paths to nodes; the read-only source filesystem
scanned by the bus walk is modelled as a record of the system-call
results the Go code consumes (`os.ReadDir`, `os.Lstat`, `os.Readlink`).
A gzip-compressed tar archive is modelled as its list of entries; the
gzip/tar byte codec itself is assumed to be an inverse pair and is not
re-verified here.
-/

set_option maxHeartbeats 1000000

namespace Ghw

/-- A filesystem path, as its list of `/`-separated segments. -/
abbrev Path := List String

/-- Segment-level model of Go's `filepath.Clean` applied to an absolute
path: drop empty and `.` segments, make `..` discard the previous
segment (at the root, `..` is discarded). -/
def cleanSegs (segs : List String) : Path :=
  segs.foldl
    (fun acc s =>
      if s = "" ∨ s = "." then acc
      else if s = ".." then acc.dropLast
      else acc ++ [s])
    []

/-- Split a character list at `/` boundaries (the semantics of
`strings.Split(s, "/")`). -/
def splitOnSlash : List Char → List (List Char)
  | [] => [[]]
  | c :: rest =>
    match splitOnSlash rest with
    | [] => [[c]]
    | seg :: segs =>
      if c = '/' then [] :: seg :: segs else (c :: seg) :: segs

/-- Split a `/`-separated Go path string into raw segments. -/
def splitPath (s : String) : List String :=
  (splitOnSlash s.toList).map String.mk

/-- `p` is a (not necessarily proper) leading part of `q`. -/
def isPre (p q : Path) : Prop := ∃ t, q = p ++ t

/-- Segment-level model of Go's `strings.Contains` on path strings:
`sub` occurs as a contiguous substring of `s` (both as char lists). -/
def hasSub (s sub : List Char) : Bool :=
  (List.range (s.length + 1)).any
    fun i => ((s.drop i).take sub.length) = sub

/-! ## The mutable filesystem world

The destination tree written by the expander and the staging tree
written by the snapshotter are finite maps from absolute paths to
nodes, represented as association lists.  Operations mirror the
behaviour of the `os` package calls the Go code issues. -/

/-- A filesystem node: a directory (with mode), a regular file (content
bytes and mode), or a symbolic link (with its verbatim target string). -/
inductive FNode where
  | dir (mode : Nat)
  | file (content : List Nat) (mode : Nat)
  | symlink (target : String)
  deriving DecidableEq, Repr

/-- A finite filesystem: bindings from paths to nodes. -/
abbrev FS := List (Path × FNode)

/-- Look a path up in the filesystem (first matching binding). -/
def lookupFS : FS → Path → Option FNode
  | [], _ => none
  | e :: rest, p => if e.1 = p then some e.2 else lookupFS rest p

/-- Remove every binding of `p`. -/
def eraseFS : FS → Path → FS
  | [], _ => []
  | e :: rest, p => if e.1 = p then eraseFS rest p else e :: eraseFS rest p

/-- Bind `p` to `n`, replacing any previous binding. -/
def setFS (fs : FS) (p : Path) (n : FNode) : FS :=
  (p, n) :: eraseFS fs p

/-- The immediate children of directory `p`: bindings one segment below
`p`. -/
def childrenFS (fs : FS) (p : Path) : List (Path × FNode) :=
  fs.filter fun e => decide (e.1.take p.length = p ∧ e.1.length = p.length + 1)

/-- Model of the ghw helper `exists` (an `os.Stat` probe): the path is
bound in the filesystem. -/
def existsFS (fs : FS) (p : Path) : Bool :=
  (lookupFS fs p).isSome

/-- Model of ghw's `isEmptyDir`: `os.ReadDir` must succeed (the path is
a directory) and return no entries; on a listing error the answer is
`false`. -/
def isEmptyDir (fs : FS) (p : Path) : Bool :=
  match lookupFS fs p with
  | some (.dir _) => childrenFS fs p |>.isEmpty
  | _ => false

/-- Model of `os.MkdirAll`, walking the segments of the requested path
below `base`: existing directories are kept, missing ones are created
with `mode`, and a non-directory node anywhere along the chain is an
error (`none`). -/
def mkdirAllAux (fs : FS) (base : Path) (segs : List String) (mode : Nat) :
    Option FS :=
  match segs with
  | [] => some fs
  | s :: rest =>
    let q := base ++ [s]
    match lookupFS fs q with
    | some (.dir _) => mkdirAllAux fs q rest mode
    | some _ => none
    | none => mkdirAllAux (setFS fs q (.dir mode)) q rest mode

/-- `os.MkdirAll` from the root. -/
def mkdirAll (fs : FS) (p : Path) (mode : Nat) : Option FS :=
  mkdirAllAux fs [] p mode

/-! ## Tar archives -/

/-- The tar entry types the expander distinguishes; everything else is
`other` (ignored by `untar`). -/
inductive TTyp where
  | dir
  | reg
  | symlink
  | other
  deriving DecidableEq, Repr

/-- One tar entry: a name (path relative to the archive root), a type
flag, a mode, the content bytes (regular files), and the link target
(symlinks). -/
structure TarEntry where
  name : Path
  typ : TTyp
  mode : Nat
  content : List Nat
  linkname : String
  deriving DecidableEq, Repr

/-! ## The expander (`Expand` / `untar`, from the snapshot package) -/

/-- One iteration of the `untar` loop on a single tar entry.  `none`
means the iteration returned an error (which ends the whole loop).

* directory entries run `os.MkdirAll(target, mode)`;
* regular-file entries run `os.OpenFile(target, O_CREATE|O_RDWR, mode)`
  followed by `io.Copy`: a fresh file is created with the entry's mode
  and content (its parent must be an existing directory); writing into
  an existing regular file overwrites from offset zero *without
  truncation* and leaves the old mode in place;
* symlink entries run `os.Symlink(linkname, target)`, which fails if
  anything already exists at `target`;
* any other entry type is skipped. -/
def untarStep (toPath : Path) (fs : FS) (e : TarEntry) : Option FS :=
  let target := toPath ++ e.name
  match e.typ with
  | .dir => mkdirAll fs target e.mode
  | .reg =>
    match lookupFS fs target with
    | some (.file old m) =>
      some (setFS fs target (.file (e.content ++ old.drop e.content.length) m))
    | some _ => none
    | none =>
      match lookupFS fs target.dropLast with
      | some (.dir _) => some (setFS fs target (.file e.content e.mode))
      | _ => none
  | .symlink =>
    match lookupFS fs target with
    | some _ => none
    | none =>
      match lookupFS fs target.dropLast with
      | some (.dir _) => some (setFS fs target (.symlink e.linkname))
      | _ => none
  | .other => some fs

/-- The `untar` loop over the decoded entry stream.  Returns the final
filesystem and whether the loop completed; on an error the filesystem
reached so far is kept (nothing is rolled back). -/
def untarRun (toPath : Path) (fs : FS) : List TarEntry → FS × Bool
  | [] => (fs, true)
  | e :: rest =>
    match untarStep toPath fs e with
    | none => (fs, false)
    | some fs' => untarRun toPath fs' rest

/-- The errors `Expand` can return. -/
inductive ExpErr where
  | mkdirFailed
  | destNotEmpty
  | openFailed
  | untarFailed
  deriving DecidableEq, Repr

/-- Model of `snapshot.Expand(fromPath, toPath)`.  The archive argument
is the result of opening and decoding `fromPath`: `none` when opening
the snapshot file would fail.  Mirrors the Go control flow: if `toPath`
does not exist it is created with `os.MkdirAll`; otherwise, if it is
not an empty directory, the `"target directory ... is not empty"` error
is returned before the archive is opened; only then is the archive
opened and `untar` run. -/
def Expand (fs : FS) (archive : Option (List TarEntry)) (toPath : Path) :
    FS × Option ExpErr :=
  if existsFS fs toPath then
    if isEmptyDir fs toPath then
      match archive with
      | none => (fs, some .openFailed)
      | some entries =>
        match untarRun toPath fs entries with
        | (fs', true) => (fs', none)
        | (fs', false) => (fs', some .untarFailed)
    else (fs, some .destNotEmpty)
  else
    match mkdirAll fs toPath 511 with
    | none => (fs, some .mkdirFailed)
    | some fs' =>
      match archive with
      | none => (fs', some .openFailed)
      | some entries =>
        match untarRun toPath fs' entries with
        | (fs'', true) => (fs'', none)
        | (fs'', false) => (fs'', some .untarFailed)

/-! ## Basic lemmas about the filesystem world -/

theorem lookupFS_erase (fs : FS) (p q : Path) (h : q ≠ p) :
    lookupFS (eraseFS fs p) q = lookupFS fs q := by
  induction fs with
  | nil => rfl
  | cons e rest ih =>
    by_cases he : e.1 = p
    · simp only [eraseFS, if_pos he, lookupFS, ih]
      rw [if_neg]
      exact fun hq => h (hq ▸ he)
    · simp only [eraseFS, if_neg he, lookupFS, ih]

theorem lookupFS_set (fs : FS) (p : Path) (n : FNode) (q : Path) :
    lookupFS (setFS fs p n) q = if q = p then some n else lookupFS fs q := by
  unfold setFS
  by_cases h : q = p
  · subst h; simp [lookupFS]
  · simp only [lookupFS, if_neg h]
    rw [if_neg, lookupFS_erase fs p q h]
    exact fun hq => h hq.symm

/-- Every binding `mkdirAllAux` returns is either an original binding or
a directory created with the requested mode at a previously unbound
path. -/
theorem mkdirAllAux_lookup (segs : List String) (fs : FS) (base : Path)
    (mode : Nat) (fs' : FS) (h : mkdirAllAux fs base segs mode = some fs') :
    ∀ q, lookupFS fs' q = lookupFS fs q ∨
      (lookupFS fs q = none ∧ lookupFS fs' q = some (.dir mode)) := by
  induction segs generalizing fs base with
  | nil =>
    simp only [mkdirAllAux, Option.some.injEq] at h
    subst h; exact fun q => Or.inl rfl
  | cons s rest ih =>
    simp only [mkdirAllAux] at h
    cases hl : lookupFS fs (base ++ [s]) with
    | none =>
      rw [hl] at h
      intro q
      rcases ih _ _ h q with h1 | h1
      · rw [lookupFS_set] at h1
        by_cases hq : q = base ++ [s]
        · subst hq
          rw [if_pos rfl] at h1
          exact Or.inr ⟨hl, h1⟩
        · rw [if_neg hq] at h1
          exact Or.inl h1
      · rcases h1 with ⟨h1, h2⟩
        rw [lookupFS_set] at h1
        by_cases hq : q = base ++ [s]
        · subst hq; rw [if_pos rfl] at h1; exact absurd h1 (by simp)
        · rw [if_neg hq] at h1
          exact Or.inr ⟨h1, h2⟩
    | some n =>
      rw [hl] at h
      cases n with
      | dir m => exact ih _ _ h
      | file c m => exact absurd h (by simp)
      | symlink t => exact absurd h (by simp)

/-- After a successful `mkdirAllAux` the requested path is bound to a
directory. -/
theorem mkdirAllAux_final (segs : List String) (fs : FS) (base : Path)
    (mode : Nat) (fs' : FS) (hne : segs ≠ [])
    (h : mkdirAllAux fs base segs mode = some fs') :
    ∃ m, lookupFS fs' (base ++ segs) = some (.dir m) := by
  induction segs generalizing fs base with
  | nil => exact absurd rfl hne
  | cons s rest ih =>
    simp only [mkdirAllAux] at h
    rcases eq_or_ne rest [] with hr | hr
    · subst hr
      cases hl : lookupFS fs (base ++ [s]) with
      | none =>
        rw [hl] at h
        simp only [mkdirAllAux, Option.some.injEq] at h
        subst h
        refine ⟨mode, ?_⟩
        rw [lookupFS_set, if_pos rfl]
      | some n =>
        rw [hl] at h
        cases n with
        | dir m =>
          simp only [mkdirAllAux, Option.some.injEq] at h
          subst h
          exact ⟨m, hl⟩
        | file c m => exact absurd h (by simp)
        | symlink t => exact absurd h (by simp)
    · cases hl : lookupFS fs (base ++ [s]) with
      | none =>
        rw [hl] at h
        have := ih _ _ hr h
        simpa using this
      | some n =>
        rw [hl] at h
        cases n with
        | dir m =>
          have := ih _ _ hr h
          simpa using this
        | file c m => exact absurd h (by simp)
        | symlink t => exact absurd h (by simp)

/-- `untarStep` never destroys an existing directory binding. -/
theorem untarStep_keeps_dir (toPath : Path) (fs : FS) (e : TarEntry)
    (fs' : FS) (h : untarStep toPath fs e = some fs') (p : Path) (m : Nat)
    (hd : lookupFS fs p = some (.dir m)) :
    lookupFS fs' p = some (.dir m) := by
  cases he : e.typ with
  | dir =>
    simp only [untarStep, he, mkdirAll] at h
    rcases mkdirAllAux_lookup _ _ _ _ _ h p with h1 | h1
    · rw [h1, hd]
    · rw [hd] at h1; exact absurd h1.1 (by simp)
  | reg =>
    simp only [untarStep, he] at h
    cases hl : lookupFS fs (toPath ++ e.name) with
    | none =>
      rw [hl] at h
      cases hp : lookupFS fs (toPath ++ e.name).dropLast with
      | none => rw [hp] at h; exact absurd h (by simp)
      | some n =>
        rw [hp] at h
        cases n with
        | dir m2 =>
          simp only [Option.some.injEq] at h
          subst h
          rw [lookupFS_set]
          rw [if_neg, hd]
          intro hq; rw [hq] at hd; rw [hd] at hl; exact absurd hl (by simp)
        | file c m2 => exact absurd h (by simp)
        | symlink t => exact absurd h (by simp)
    | some n =>
      rw [hl] at h
      cases n with
      | dir m2 => exact absurd h (by simp)
      | file c m2 =>
        simp only [Option.some.injEq] at h
        subst h
        rw [lookupFS_set]
        rw [if_neg, hd]
        intro hq; rw [hq] at hd; rw [hd] at hl
        simp only [Option.some.injEq] at hl
        exact absurd hl (by simp)
      | symlink t => exact absurd h (by simp)
  | symlink =>
    simp only [untarStep, he] at h
    cases hl : lookupFS fs (toPath ++ e.name) with
    | none =>
      rw [hl] at h
      cases hp : lookupFS fs (toPath ++ e.name).dropLast with
      | none => rw [hp] at h; exact absurd h (by simp)
      | some n =>
        rw [hp] at h
        cases n with
        | dir m2 =>
          simp only [Option.some.injEq] at h
          subst h
          rw [lookupFS_set]
          rw [if_neg, hd]
          intro hq; rw [hq] at hd; rw [hd] at hl; exact absurd hl (by simp)
        | file c m2 => exact absurd h (by simp)
        | symlink t => exact absurd h (by simp)
    | some n => rw [hl] at h; exact absurd h (by simp)
  | other =>
    simp only [untarStep, he, Option.some.injEq] at h
    subst h; exact hd

/-- `untarRun` never destroys an existing directory binding. -/
theorem untarRun_keeps_dir (entries : List TarEntry) (toPath : Path)
    (fs : FS) (p : Path) (m : Nat) (hd : lookupFS fs p = some (.dir m)) :
    lookupFS (untarRun toPath fs entries).1 p = some (.dir m) := by
  induction entries generalizing fs with
  | nil => exact hd
  | cons e rest ih =>
    simp only [untarRun]
    cases hs : untarStep toPath fs e with
    | none => exact hd
    | some fs' => exact ih fs' (untarStep_keeps_dir _ _ _ _ hs _ _ hd)

/-! ## Claim C2: destination guard for `Expand` -/

/-- C2: for every call `expand(archivePath, destPath)` where `destPath`
exists and is non-empty, the call returns the "destination not empty"
error before opening or reading any archive data (the result is the
guard error whatever the archive contains, even when opening it would
fail) and leaves the destination filesystem unmodified; if `destPath`
does not exist it is created fresh as a directory. -/
theorem expand_destination_guard (fs : FS) (archive : Option (List TarEntry))
    (toPath : Path) :
    (existsFS fs toPath = true → isEmptyDir fs toPath = false →
      Expand fs archive toPath = (fs, some .destNotEmpty)) ∧
    (existsFS fs toPath = false → toPath ≠ [] →
      ∀ fs', mkdirAll fs toPath 511 = some fs' →
        ∃ m, lookupFS (Expand fs archive toPath).1 toPath = some (.dir m)) := by
  constructor
  · intro h1 h2
    simp [Expand, h1, h2]
  · intro h1 hne fs' hm
    have hdir := mkdirAllAux_final toPath fs [] 511 fs' hne hm
    simp only [List.nil_append] at hdir
    obtain ⟨m, hdir⟩ := hdir
    simp only [Expand, h1, Bool.false_eq_true, if_false, mkdirAll] at *
    rw [hm]
    cases archive with
    | none => exact ⟨m, hdir⟩
    | some entries =>
      have hkeep := untarRun_keeps_dir entries toPath fs' toPath m hdir
      cases hu : untarRun toPath fs' entries with
      | mk fs'' b =>
        rw [hu] at hkeep
        simp only [hu]
        cases b <;> exact ⟨m, hkeep⟩

/-- Witness for C2 at concrete inputs: a destination holding one file
triggers the guard (with an unopenable archive, state unchanged), and a
missing destination is created as a directory. -/
theorem expand_destination_guard_w :
    existsFS [(["d"], FNode.dir 7), (["d", "x"], FNode.file [] 0)] ["d"] = true ∧
    isEmptyDir [(["d"], FNode.dir 7), (["d", "x"], FNode.file [] 0)] ["d"] = false ∧
    Expand [(["d"], FNode.dir 7), (["d", "x"], FNode.file [] 0)] none ["d"] =
      ([(["d"], FNode.dir 7), (["d", "x"], FNode.file [] 0)], some .destNotEmpty) ∧
    (∃ m, lookupFS (Expand ([] : FS) (some []) ["d"]).1 ["d"] = some (.dir m)) := by
  refine ⟨by decide, by decide, ?_, ?_⟩
  · exact (expand_destination_guard _ none ["d"]).1 (by decide) (by decide)
  · exact (expand_destination_guard [] (some []) ["d"]).2 (by decide) (by decide)
      [(["d"], FNode.dir 511)] (by decide)

/-! ## Claim C9: regular-file extraction -/

/-- C9 counterexample: a regular-file tar entry whose destination path
already holds a longer file.  The entry is processed without error, but
the resulting file holds neither the entry's stored content (the old
tail survives, because the file is opened `O_CREATE|O_RDWR` without
`O_TRUNC`) nor the entry's stored mode (the mode is only applied at
creation). -/
theorem untar_reg_overwrite_cx :
    (untarRun ["d"] [(["d"], FNode.dir 511), (["d", "f"], FNode.file [1, 2] 7)]
        [⟨["f"], .reg, 5, [9], ""⟩]).2 = true ∧
    lookupFS (untarRun ["d"]
        [(["d"], FNode.dir 511), (["d", "f"], FNode.file [1, 2] 7)]
        [⟨["f"], .reg, 5, [9], ""⟩]).1 ["d", "f"] ≠
      some (.file [9] 5) := by decide

/-- C9 (amended): for every regular-file tar entry processed by
`untar`, if no file existed at the destination path (the normal case:
expansion starts from an empty destination) the file afterwards holds
exactly the entry's stored byte content with the entry's stored mode;
if a regular file already existed there, the entry's bytes overwrite
the old content from offset zero without truncation (an old tail beyond
the entry's length survives) and the old mode is kept. -/
theorem untar_reg_exact (toPath : Path) (fs : FS) (e : TarEntry)
    (he : e.typ = .reg) :
    (lookupFS fs (toPath ++ e.name) = none →
      ∀ m, lookupFS fs (toPath ++ e.name).dropLast = some (.dir m) →
      ∃ fs', untarStep toPath fs e = some fs' ∧
        lookupFS fs' (toPath ++ e.name) = some (.file e.content e.mode)) ∧
    (∀ old m, lookupFS fs (toPath ++ e.name) = some (.file old m) →
      ∃ fs', untarStep toPath fs e = some fs' ∧
        lookupFS fs' (toPath ++ e.name) =
          some (.file (e.content ++ old.drop e.content.length) m)) := by
  constructor
  · intro hnone m hpar
    refine ⟨setFS fs (toPath ++ e.name) (.file e.content e.mode), ?_, ?_⟩
    · simp [untarStep, he, hnone, hpar]
    · rw [lookupFS_set, if_pos rfl]
  · intro old m hold
    refine ⟨setFS fs (toPath ++ e.name)
        (.file (e.content ++ old.drop e.content.length) m), ?_, ?_⟩
    · simp [untarStep, he, hold]
    · rw [lookupFS_set, if_pos rfl]

/-- Witness for C9 (amended) at concrete inputs: a fresh extraction
yields exactly the stored content and mode. -/
theorem untar_reg_exact_w :
    lookupFS [(["d"], FNode.dir 511)] (["d"] ++ ["g"]) = none ∧
    lookupFS [(["d"], FNode.dir 511)] (["d"] ++ ["g"]).dropLast =
      some (.dir 511) ∧
    (∃ fs', untarStep ["d"] [(["d"], FNode.dir 511)] ⟨["g"], .reg, 6, [1], ""⟩ =
        some fs' ∧
      lookupFS fs' (["d"] ++ ["g"]) = some (.file [1] 6)) := by
  refine ⟨by decide, by decide, ?_⟩
  exact (untar_reg_exact ["d"] [(["d"], FNode.dir 511)]
      ⟨["g"], .reg, 6, [1], ""⟩ rfl).1 (by decide) 511 (by decide)

/-! ## The snapshotter's staging tree and the packing walk

A staging tree (the contents of the snapshotter's build directory) is
an in-memory tree of named entries.  `createSnapshot` packs it with
`filepath.Walk`: the root itself is skipped (`path == s.buildPath`
returns early), every other visited path becomes one tar entry whose
name is the path relative to the build root, whose mode is the
permission bits reported by `tar.FileInfoHeader` (`fi.Mode().Perm()`,
i.e. the low nine bits), and, for regular files, whose content is the
file's bytes; for symlinks the link target read by `os.Readlink` is
stored.  `filepath.Walk` visits a directory before its contents; the
entry lists below represent the directory entries in the walk's
visiting order. -/

/-- A node of the staging tree. -/
inductive SNode where
  | file (content : List Nat) (mode : Nat)
  | symlink (target : String)
  | dir (mode : Nat) (entries : List (String × SNode))
  deriving Repr

mutual

/-- The tar entries `createSnapshot`'s walk emits for one staging-tree
node located at relative path `rel` (the node's own entry followed, for
directories, by its descendants' entries). -/
def packTree (rel : Path) : SNode → List TarEntry
  | .file c m => [⟨rel, .reg, m % 512, c, ""⟩]
  | .symlink t => [⟨rel, .symlink, 511, [], t⟩]
  | .dir m es => ⟨rel, .dir, m % 512, [], ""⟩ :: packList rel es

/-- The tar entries emitted for the children of a directory at relative
path `rel`, in walk order. -/
def packList (rel : Path) : List (String × SNode) → List TarEntry
  | [] => []
  | (n, sub) :: rest => packTree (rel ++ [n]) sub ++ packList rel rest

end

/-! ## `createSnapshot`: the output-path guard (claim C3)

`createSnapshot` stats `outPath`.  If it does not exist it is created
and the archive is streamed through that handle.  If it exists, the
code opens it `O_WRONLY` **into a freshly declared local `f` that
shadows the outer `f`**, checks the size, and errors out when the size
is positive; when the size is zero it falls through — but the gzip
writer is then constructed over the outer `f`, which is still `nil`,
so the first archive write fails (`os.ErrInvalid`), and with an empty
staging tree nothing is ever written at all (the deferred `Close`
errors are discarded).  The `valid` flag of `writeEntries` models
whether the handle the gzip writer wraps is the opened file. -/

/-- Errors of the modelled `createSnapshot`. -/
inductive CSErr where
  | alreadyExists
  | writeFailed
  deriving DecidableEq, Repr

/-- Streaming the walk's tar entries through the (possibly nil) output
file handle: with no entries no write is attempted and the walk returns
`nil`; otherwise the first write fails unless the handle is valid. -/
def writeEntries (valid : Bool) (es : List TarEntry) :
    Except CSErr (List TarEntry) :=
  match es with
  | [] => .ok []
  | _ :: _ => if valid then .ok es else .error .writeFailed

/-- Model of `snapshotter.createSnapshot`.  `outSt` is the prior state
of `outPath`: `none` when it does not exist, `some sz` when it exists
with size `sz`.  `build` is the staging tree below the build root.  On
success the result is the list of tar entries written to `outPath`. -/
def createSnapshot (outSt : Option Nat) (build : List (String × SNode)) :
    Except CSErr (List TarEntry) :=
  match outSt with
  | none => writeEntries true (packList [] build)
  | some sz =>
    if sz > 0 then .error .alreadyExists
    else writeEntries false (packList [] build)

/-- C3: the claim says capture fails without writing exactly when
`outPath` exists with positive size, and succeeds in writing the
archive when `outPath` does not exist **or exists with zero size**.
The code violates the zero-size half: the `f, err := os.OpenFile(...)`
inside the `else` branch shadows the outer `f`, so the archive is
streamed into a nil file handle and the walk fails on its first write.
This theorem evaluates the embedded code at the failing input (an
existing zero-size `outPath` and a one-file staging tree): the call
errors instead of writing the archive, while the same staging tree
packs fine when `outPath` does not exist, and a positive-size `outPath`
fails with the dedicated error before anything is written. -/
theorem createSnapshot_zero_size_bug :
    createSnapshot (some 0) [("f", SNode.file [1] 420)] =
      .error .writeFailed ∧
    createSnapshot none [("f", SNode.file [1] 420)] =
      .ok [⟨["f"], .reg, 420 % 512, [1], ""⟩] ∧
    createSnapshot (some 3) [("f", SNode.file [1] 420)] =
      .error .alreadyExists := by
  refine ⟨rfl, ?_, rfl⟩
  rw [createSnapshot, packList, packTree, packList]
  rfl

/-! ## Round-trip machinery for claim C1 -/

theorem isPre_refl (p : Path) : isPre p p := ⟨[], by simp⟩

theorem isPre_append (p t : Path) : isPre p (p ++ t) := ⟨t, rfl⟩

theorem isPre_of_child (p : Path) (n : String) (q : Path)
    (h : isPre (p ++ [n]) q) : isPre p q := by
  obtain ⟨t, ht⟩ := h
  exact ⟨[n] ++ t, by simp [ht]⟩

theorem isPre_len (p q : Path) (h : isPre p q) : p.length ≤ q.length := by
  obtain ⟨t, ht⟩ := h
  simp [ht]

theorem not_isPre_child_self (p : Path) (n : String) : ¬ isPre (p ++ [n]) p := by
  intro h
  have := isPre_len _ _ h
  simp at this

theorem isPre_child_inj (p : Path) (a b : String) (q : Path)
    (ha : isPre (p ++ [a]) q) (hb : isPre (p ++ [b]) q) : a = b := by
  obtain ⟨t1, ht1⟩ := ha
  obtain ⟨t2, ht2⟩ := hb
  rw [ht1] at ht2
  simp only [List.append_assoc, List.append_cancel_left_eq] at ht2
  simp only [List.singleton_append, List.cons.injEq] at ht2
  exact ht2.1

/-- The node recorded for the root of a materialized subtree: file
modes are the stored permission bits, directory children are dropped. -/
def nodeHead : SNode → FNode
  | .file c m => .file c (m % 512)
  | .symlink t => .symlink t
  | .dir m _ => .dir (m % 512)

mutual

/-- Specification-side materialization: the filesystem obtained by
extracting the packed entries of one staging-tree node at absolute path
`p`. -/
def insTree (fs : FS) (p : Path) : SNode → FS
  | .file c m => setFS fs p (.file c (m % 512))
  | .symlink t => setFS fs p (.symlink t)
  | .dir m es => insList (setFS fs p (.dir (m % 512))) p es

/-- Materialization of a directory's children below absolute path `p`. -/
def insList (fs : FS) (p : Path) : List (String × SNode) → FS
  | [] => fs
  | (n, sub) :: rest => insList (insTree fs (p ++ [n]) sub) p rest

end

mutual

/-- Materializing a subtree at `p` only touches paths below `p`. -/
theorem insTree_outside (n : SNode) (fs : FS) (p q : Path)
    (h : ¬ isPre p q) : lookupFS (insTree fs p n) q = lookupFS fs q := by
  cases n with
  | file c m =>
    rw [insTree, lookupFS_set, if_neg, ]
    intro hq; exact h (hq ▸ isPre_refl p)
  | symlink t =>
    rw [insTree, lookupFS_set, if_neg]
    intro hq; exact h (hq ▸ isPre_refl p)
  | dir m es =>
    rw [insTree, insList_outside es _ p q, lookupFS_set, if_neg]
    · intro hq; exact h (hq ▸ isPre_refl p)
    · intro nm _ hpre
      exact h (isPre_of_child p nm q hpre)

/-- Materializing children below `p` only touches paths below the
children's names. -/
theorem insList_outside (es : List (String × SNode)) (fs : FS) (p q : Path)
    (h : ∀ nm ∈ es.map Prod.fst, ¬ isPre (p ++ [nm]) q) :
    lookupFS (insList fs p es) q = lookupFS fs q := by
  cases es with
  | nil => rw [insList]
  | cons hd rest =>
    obtain ⟨n, sub⟩ := hd
    rw [insList, insList_outside rest _ p q, insTree_outside sub fs (p ++ [n]) q]
    · exact h n (by simp)
    · intro nm hm hpre
      refine h nm ?_ hpre
      simp only [List.map_cons, List.mem_cons]
      exact Or.inr hm

end

/-- A well-formed staging tree: within every directory the entry names
are distinct (as `os.ReadDir`/`filepath.Walk` reports them). -/
inductive WfS : SNode → Prop where
  | file (c : List Nat) (m : Nat) : WfS (.file c m)
  | symlink (t : String) : WfS (.symlink t)
  | dir (m : Nat) (es : List (String × SNode)) :
      (es.map Prod.fst).Nodup → (∀ p ∈ es, WfS p.2) → WfS (.dir m es)

/-- The staging tree `es` holds node `s` at relative path `q`. -/
inductive TreeAt : List (String × SNode) → Path → SNode → Prop where
  | here {es : List (String × SNode)} {n : String} {s : SNode} :
      (n, s) ∈ es → TreeAt es [n] s
  | deeper {es : List (String × SNode)} {n : String} {m : Nat}
      {es' : List (String × SNode)} {p : Path} {s : SNode} :
      (n, .dir m es') ∈ es → TreeAt es' p s → TreeAt es (n :: p) s

/-- The root binding of a materialized subtree. -/
theorem insTree_at_root (n : SNode) (fs : FS) (p : Path) :
    lookupFS (insTree fs p n) p = some (nodeHead n) := by
  cases n with
  | file c m => rw [insTree, lookupFS_set, if_pos rfl]; rfl
  | symlink t => rw [insTree, lookupFS_set, if_pos rfl]; rfl
  | dir m es =>
    rw [insTree, insList_outside es _ p p, lookupFS_set, if_pos rfl]
    · rfl
    · intro nm _ hpre
      exact not_isPre_child_self p nm hpre

theorem isPre_child_child (p : Path) (a b : String)
    (h : isPre (p ++ [a]) (p ++ [b])) : a = b :=
  isPre_child_inj p a b (p ++ [b]) h (isPre_refl _)

/-- Every node of a materialized well-formed subtree list is found at
its materialized path (strong induction on the size of the list). -/
theorem insList_atAux (k : Nat) :
    ∀ (es : List (String × SNode)) (fs : FS) (p q : Path) (s : SNode),
      sizeOf es < k → (es.map Prod.fst).Nodup → (∀ x ∈ es, WfS x.2) →
      TreeAt es q s →
      lookupFS (insList fs p es) (p ++ q) = some (nodeHead s) := by
  induction k with
  | zero => intro es _ _ _ _ hk; omega
  | succ k ih =>
    intro es fs p q s hk hnd hwf hT
    cases es with
    | nil =>
      cases hT with
      | here hmem => exact absurd hmem (List.not_mem_nil _)
      | deeper hmem hT' => exact absurd hmem (List.not_mem_nil _)
    | cons hd rest =>
      obtain ⟨n0, sub0⟩ := hd
      have hsz : sizeOf rest < k := by
        have h1 := List.cons.sizeOf_spec (n0, sub0) rest
        omega
      rw [insList]
      have hnd' : (rest.map Prod.fst).Nodup := (List.nodup_cons.mp hnd).2
      have hn0 : n0 ∉ rest.map Prod.fst := by
        simpa using (List.nodup_cons.mp hnd).1
      cases hT with
      | here hmem =>
        rename_i nn
        rcases List.mem_cons.mp hmem with heq | hmem'
        · injection heq with h1 h2
          subst h1; subst h2
          rw [insList_outside rest _ p (p ++ [nn])]
          · exact insTree_at_root _ _ _
          · intro nm hm hpre
            exact hn0 ((isPre_child_child p nm nn hpre) ▸ hm)
        · exact ih rest _ p [nn] s hsz hnd'
            (fun x hx => hwf x (List.mem_cons_of_mem _ hx)) (.here hmem')
      | deeper hmem hT' =>
        rename_i nn mm ees pp
        rcases List.mem_cons.mp hmem with heq | hmem'
        · injection heq with h1 h2
          subst h1; subst h2
          have hsz2 : sizeOf ees < k := by
            have h1 := List.cons.sizeOf_spec (nn, SNode.dir mm ees) rest
            have h2 : sizeOf (nn, SNode.dir mm ees) =
                1 + sizeOf nn + sizeOf (SNode.dir mm ees) := rfl
            have h3 : sizeOf (SNode.dir mm ees) = 1 + sizeOf mm + sizeOf ees := by
              simp
            omega
          rw [insList_outside rest _ p (p ++ nn :: pp)]
          · rw [insTree]
            have hwf0 : WfS (.dir mm ees) := hwf (nn, .dir mm ees) (by simp)
            cases hwf0 with
            | dir _ _ hnd2 hall =>
              have := ih ees (setFS fs (p ++ [nn]) (.dir (mm % 512)))
                (p ++ [nn]) pp s hsz2 hnd2 hall hT'
              simpa using this
          · intro nm hm hpre
            have hpre' : isPre (p ++ [nm]) ((p ++ [nn]) ++ pp) := by
              simpa using hpre
            exact hn0 ((isPre_child_inj p nm nn _ hpre' ⟨pp, rfl⟩) ▸ hm)
        · exact ih rest _ p (nn :: pp) s hsz hnd'
            (fun x hx => hwf x (List.mem_cons_of_mem _ hx)) (.deeper hmem' hT')

/-- Every node of a materialized well-formed subtree list is found at
its materialized path. -/
theorem insList_at (es : List (String × SNode)) (fs : FS) (p q : Path)
    (s : SNode) (hnd : (es.map Prod.fst).Nodup) (hwf : ∀ x ∈ es, WfS x.2)
    (hT : TreeAt es q s) :
    lookupFS (insList fs p es) (p ++ q) = some (nodeHead s) :=
  insList_atAux (sizeOf es + 1) es fs p q s (by omega) hnd hwf hT

/-- Processing a concatenated entry stream is processing the first part
and, if it completed, the second. -/
theorem untarRun_append (toPath : Path) (fs : FS) (a b : List TarEntry) :
    untarRun toPath fs (a ++ b) =
      match untarRun toPath fs a with
      | (fs1, true) => untarRun toPath fs1 b
      | (fs1, false) => (fs1, false) := by
  induction a generalizing fs with
  | nil => simp [untarRun]
  | cons e rest ih =>
    simp only [List.cons_append, untarRun]
    cases untarStep toPath fs e with
    | none => rfl
    | some fs' => exact ih fs'

/-- All nonempty leading parts of `t` strictly shorter than `t` are
directories of `fs`. -/
def chainDirs (fs : FS) (t : Path) : Prop :=
  ∀ q, q ≠ [] → q ≠ t → isPre q t → ∃ m, lookupFS fs q = some (.dir m)

/-- `mkdirAllAux` when all intermediate chain nodes are directories and
the final path is unbound: exactly the final directory is created. -/
theorem mkdirAllAux_create (segs : List String) (base : Path) (fs : FS)
    (mode : Nat) (hne : segs ≠ [])
    (hmid : ∀ i, 0 < i → i < segs.length →
      ∃ m', lookupFS fs (base ++ segs.take i) = some (.dir m'))
    (hlast : lookupFS fs (base ++ segs) = none) :
    mkdirAllAux fs base segs mode =
      some (setFS fs (base ++ segs) (.dir mode)) := by
  induction segs generalizing base with
  | nil => exact absurd rfl hne
  | cons s rest ih =>
    rcases eq_or_ne rest [] with hr | hr
    · subst hr
      simp only [mkdirAllAux]
      rw [hlast]
    · have h1 : ∃ m', lookupFS fs (base ++ [s]) = some (.dir m') := by
        have hlp := List.length_pos.mpr hr
        have := hmid 1 (by omega) (by simp only [List.length_cons]; omega)
        simpa using this
      obtain ⟨m', hm'⟩ := h1
      simp only [mkdirAllAux]
      rw [hm']
      have := ih (base ++ [s]) hr
        (fun i hi hilen => by
          have := hmid (i + 1) (by omega)
            (by simp only [List.length_cons]; omega)
          simpa [List.append_assoc] using this)
        (by simpa [List.append_assoc] using hlast)
      simpa [List.append_assoc] using this

/-- After a successful `mkdirAllAux`, every nonempty chain position is
bound to a directory. -/
theorem mkdirAllAux_chain_after (segs : List String) (base : Path) (fs : FS)
    (mode : Nat) (fs' : FS) (h : mkdirAllAux fs base segs mode = some fs') :
    ∀ i, 0 < i → i ≤ segs.length →
      ∃ m', lookupFS fs' (base ++ segs.take i) = some (.dir m') := by
  induction segs generalizing base fs with
  | nil => intro i h1 h2; simp only [List.length_nil] at h2; omega
  | cons s rest ih =>
    intro i h1 h2
    simp only [List.length_cons] at h2
    simp only [mkdirAllAux] at h
    have step :
        ∀ (fs1 : FS) (m0 : Nat), lookupFS fs1 (base ++ [s]) = some (.dir m0) →
          mkdirAllAux fs1 (base ++ [s]) rest mode = some fs' →
          ∃ m', lookupFS fs' (base ++ (s :: rest).take i) = some (.dir m') := by
      intro fs1 m0 hf1 hrun
      rcases eq_or_ne i 1 with hi | hi
      · subst hi
        have htake : base ++ (s :: rest).take 1 = base ++ [s] := by simp
        rw [htake]
        rcases mkdirAllAux_lookup _ _ _ _ _ hrun (base ++ [s]) with he | he
        · exact ⟨m0, by rw [he, hf1]⟩
        · exact ⟨mode, he.2⟩
      · have := ih (base ++ [s]) fs1 hrun (i - 1) (by omega) (by omega)
        obtain ⟨m', hm'⟩ := this
        refine ⟨m', ?_⟩
        have hq : base ++ [s] ++ rest.take (i - 1) = base ++ (s :: rest).take i := by
          obtain ⟨j, rfl⟩ : ∃ j, i = j + 1 := ⟨i - 1, by omega⟩
          simp [List.append_assoc]
        rw [← hq]; exact hm'
    cases hl : lookupFS fs (base ++ [s]) with
    | none =>
      rw [hl] at h
      exact step (setFS fs (base ++ [s]) (.dir mode)) mode
        (by rw [lookupFS_set, if_pos rfl]) h
    | some n =>
      rw [hl] at h
      cases n with
      | dir m0 => exact step fs m0 hl h
      | file c m0 => exact absurd h (by simp)
      | symlink t => exact absurd h (by simp)

/-- `mkdirAllAux` leaves every path that is not a chain position
untouched. -/
theorem mkdirAllAux_untouched (segs : List String) (base : Path) (fs : FS)
    (mode : Nat) (fs' : FS) (h : mkdirAllAux fs base segs mode = some fs')
    (q : Path)
    (hq : ∀ i, 0 < i → i ≤ segs.length → q ≠ base ++ segs.take i) :
    lookupFS fs' q = lookupFS fs q := by
  induction segs generalizing base fs with
  | nil =>
    simp only [mkdirAllAux, Option.some.injEq] at h
    subst h; rfl
  | cons s rest ih =>
    simp only [mkdirAllAux] at h
    have hq1 : q ≠ base ++ [s] := by
      have := hq 1 (by omega) (by simp only [List.length_cons]; omega)
      simpa using this
    have hqr : ∀ i, 0 < i → i ≤ rest.length →
        q ≠ (base ++ [s]) ++ rest.take i := by
      intro i hi hilen
      have := hq (i + 1) (by omega) (by simp only [List.length_cons]; omega)
      simpa [List.append_assoc] using this
    cases hl : lookupFS fs (base ++ [s]) with
    | none =>
      rw [hl] at h
      rw [ih (base ++ [s]) _ h hqr, lookupFS_set, if_neg hq1]
    | some n =>
      rw [hl] at h
      cases n with
      | dir m0 => exact ih (base ++ [s]) _ h hqr
      | file c m0 => exact absurd h (by simp)
      | symlink t => exact absurd h (by simp)

/-- `mkdirAllAux` succeeds when the whole chain is unbound. -/
theorem mkdirAllAux_all_fresh (segs : List String) (base : Path) (fs : FS)
    (mode : Nat)
    (hfr : ∀ i, 0 < i → i ≤ segs.length →
      lookupFS fs (base ++ segs.take i) = none) :
    ∃ fs', mkdirAllAux fs base segs mode = some fs' := by
  induction segs generalizing base fs with
  | nil => exact ⟨fs, rfl⟩
  | cons s rest ih =>
    have h1 : lookupFS fs (base ++ [s]) = none := by
      have := hfr 1 (by omega) (by simp only [List.length_cons]; omega)
      simpa using this
    simp only [mkdirAllAux]
    rw [h1]
    apply ih (base ++ [s])
    intro i hi hilen
    rw [lookupFS_set, if_neg]
    · have := hfr (i + 1) (by omega) (by simp only [List.length_cons]; omega)
      simpa [List.append_assoc] using this
    · intro hcontra
      have := hfr 1 (by omega) (by simp)
      have hlen : ((base ++ [s]) ++ rest.take i).length = base.length + 1 + i := by
        simp
        omega
      have hlen2 : (base ++ [s]).length = base.length + 1 := by simp
      rw [hcontra] at hlen
      omega

theorem untarRun_cons_some (toPath : Path) (fs : FS) (e : TarEntry)
    (rest : List TarEntry) (fs1 : FS) (h : untarStep toPath fs e = some fs1) :
    untarRun toPath fs (e :: rest) = untarRun toPath fs1 rest := by
  simp [untarRun, h]

theorem untarStep_reg_fresh (toPath fs_ : Path) (fs : FS) (mode : Nat)
    (content : List Nat) (ln : String) (m' : Nat)
    (hn : lookupFS fs (toPath ++ fs_) = none)
    (hm : lookupFS fs ((toPath ++ fs_).dropLast) = some (.dir m')) :
    untarStep toPath fs ⟨fs_, .reg, mode, content, ln⟩ =
      some (setFS fs (toPath ++ fs_) (.file content mode)) := by
  simp [untarStep, hn, hm]

theorem untarStep_symlink_fresh (toPath fs_ : Path) (fs : FS) (mode : Nat)
    (content : List Nat) (ln : String) (m' : Nat)
    (hn : lookupFS fs (toPath ++ fs_) = none)
    (hm : lookupFS fs ((toPath ++ fs_).dropLast) = some (.dir m')) :
    untarStep toPath fs ⟨fs_, .symlink, mode, content, ln⟩ =
      some (setFS fs (toPath ++ fs_) (.symlink ln)) := by
  simp [untarStep, hn, hm]

theorem untarStep_dir_entry (toPath fs_ : Path) (fs : FS) (mode : Nat)
    (content : List Nat) (ln : String) :
    untarStep toPath fs ⟨fs_, .dir, mode, content, ln⟩ =
      mkdirAll fs (toPath ++ fs_) mode := rfl

theorem isPre_snoc (q t : Path) (x : String) (h : isPre q (t ++ [x])) :
    isPre q t ∨ q = t ++ [x] := by
  obtain ⟨u, hu⟩ := h
  rcases List.eq_nil_or_concat u with hn | ⟨u', y, rfl⟩
  · subst hn
    right
    simp at hu
    exact hu.symm
  · left
    rw [List.concat_eq_append, ← List.append_assoc] at hu
    have := List.append_inj' hu (by simp)
    exact ⟨u', this.1⟩

/-- Main induction for the round trip: extracting the packed entries of
a well-formed staging subtree, from a state where the target's ancestor
chain exists as directories and the target region is unbound,
materializes exactly that subtree and completes without error. -/
theorem untar_packAux (k : Nat) (toPath : Path) (htp : toPath ≠ []) :
    (∀ (n : SNode) (rel : Path) (fs : FS), sizeOf n < k → WfS n → rel ≠ [] →
      chainDirs fs (toPath ++ rel) →
      (∀ q, isPre (toPath ++ rel) q → lookupFS fs q = none) →
      untarRun toPath fs (packTree rel n) =
        (insTree fs (toPath ++ rel) n, true)) ∧
    (∀ (es : List (String × SNode)) (rel : Path) (fs : FS), sizeOf es < k →
      (∀ x ∈ es, WfS x.2) → (es.map Prod.fst).Nodup →
      (∃ m, lookupFS fs (toPath ++ rel) = some (.dir m)) →
      chainDirs fs (toPath ++ rel) →
      (∀ x ∈ es, ∀ q, isPre (toPath ++ rel ++ [x.1]) q →
        lookupFS fs q = none) →
      untarRun toPath fs (packList rel es) =
        (insList fs (toPath ++ rel) es, true)) := by
  induction k with
  | zero => exact ⟨fun n _ _ h => by omega, fun es _ _ h => by omega⟩
  | succ k ih =>
    constructor
    · intro n rel fs hk hwfn hrel hch hfr
      have hfrt : lookupFS fs (toPath ++ rel) = none := hfr _ (isPre_refl _)
      have htne : toPath ++ rel ≠ [] := by
        intro hc
        rw [List.append_eq_nil] at hc
        exact htp hc.1
      have hlenp : 0 < toPath.length := List.length_pos.mpr htp
      have hlenr : 0 < rel.length := List.length_pos.mpr hrel
      have hlent : (toPath ++ rel).length = toPath.length + rel.length := by
        simp
      have hpar : ∃ m', lookupFS fs ((toPath ++ rel).dropLast) =
          some (.dir m') := by
        apply hch
        · intro hc
          have := congrArg List.length hc
          rw [List.length_dropLast] at this
          simp only [List.length_nil] at this
          omega
        · intro hc
          have := congrArg List.length hc
          rw [List.length_dropLast] at this
          omega
        · exact ⟨[(toPath ++ rel).getLast htne],
            (List.dropLast_append_getLast htne).symm⟩
      obtain ⟨m', hm'⟩ := hpar
      cases n with
      | file c m =>
        rw [packTree]
        rw [untarRun_cons_some _ _ _ _ _
          (untarStep_reg_fresh toPath rel fs (m % 512) c "" m' hfrt hm')]
        rw [untarRun, insTree]
      | symlink t =>
        rw [packTree]
        rw [untarRun_cons_some _ _ _ _ _
          (untarStep_symlink_fresh toPath rel fs 511 [] t m' hfrt hm')]
        rw [untarRun, insTree]
      | dir m es =>
        have hmk : mkdirAll fs (toPath ++ rel) (m % 512) =
            some (setFS fs (toPath ++ rel) (.dir (m % 512))) := by
          unfold mkdirAll
          have := mkdirAllAux_create (toPath ++ rel) [] fs (m % 512) htne
            (fun i hi hilen => by
              simp only [List.nil_append]
              apply hch
              · intro hc
                have := congrArg List.length hc
                rw [List.length_take] at this
                simp only [List.length_nil] at this
                omega
              · intro hc
                have := congrArg List.length hc
                rw [List.length_take] at this
                omega
              · exact ⟨(toPath ++ rel).drop i,
                  (List.take_append_drop i (toPath ++ rel)).symm⟩)
            (by simpa using hfrt)
          simpa using this
        cases hwfn with
        | dir _ _ hnd hall =>
          have hszes : sizeOf es < k := by
            have h3 : sizeOf (SNode.dir m es) = 1 + sizeOf m + sizeOf es := by
              simp
            omega
          rw [packTree]
          rw [untarRun_cons_some _ _ _ _ _
            (by rw [untarStep_dir_entry]; exact hmk)]
          rw [insTree]
          set fs1 := setFS fs (toPath ++ rel) (.dir (m % 512)) with hfs1
          apply ih.2 es rel fs1 hszes hall hnd
          · exact ⟨m % 512, by rw [hfs1, lookupFS_set, if_pos rfl]⟩
          · intro q hq1 hq2 hq3
            rw [hfs1, lookupFS_set, if_neg hq2]
            exact hch q hq1 hq2 hq3
          · intro x hx q hq
            have hqne : q ≠ toPath ++ rel := by
              intro hc
              obtain ⟨t, ht⟩ := hq
              rw [hc] at ht
              have := congrArg List.length ht
              simp at this
            rw [hfs1, lookupFS_set, if_neg hqne]
            apply hfr
            obtain ⟨t, ht⟩ := hq
            exact ⟨[x.1] ++ t, by rw [ht]; simp⟩
    · intro es rel fs hk hwf hnd hbase hch hfr
      cases es with
      | nil => rw [packList, untarRun, insList]
      | cons hd rest =>
        obtain ⟨n0, sub0⟩ := hd
        have hsz0 : sizeOf sub0 < k ∧ sizeOf rest < k := by
          have h1 := List.cons.sizeOf_spec (n0, sub0) rest
          have h2 : sizeOf (n0, sub0) = 1 + sizeOf n0 + sizeOf sub0 := rfl
          omega
        have hch' : chainDirs fs (toPath ++ (rel ++ [n0])) := by
          intro q hq1 hq2 hq3
          rw [← List.append_assoc] at hq3 hq2
          rcases isPre_snoc q (toPath ++ rel) n0 hq3 with hq4 | hq4
          · rcases eq_or_ne q (toPath ++ rel) with he | he
            · subst he; exact hbase
            · exact hch q hq1 he hq4
          · exact absurd hq4 hq2
        have hfr' : ∀ q, isPre (toPath ++ (rel ++ [n0])) q →
            lookupFS fs q = none := by
          intro q hq
          apply hfr (n0, sub0) (by simp)
          simpa [List.append_assoc] using hq
        have h1 := ih.1 sub0 (rel ++ [n0]) fs hsz0.1
          (hwf (n0, sub0) (by simp)) (by simp) hch' hfr'
        rw [packList, untarRun_append, h1]
        have hassoc : toPath ++ (rel ++ [n0]) = (toPath ++ rel) ++ [n0] := by
          simp
        rw [hassoc] at h1 ⊢
        set fs2 := insTree fs ((toPath ++ rel) ++ [n0]) sub0 with hfs2
        rw [insList]
        have hout : ∀ q, ¬ isPre ((toPath ++ rel) ++ [n0]) q →
            lookupFS fs2 q = lookupFS fs q := by
          intro q hq
          rw [hfs2]
          exact insTree_outside _ _ _ _ hq
        have hndr : (rest.map Prod.fst).Nodup ∧ n0 ∉ rest.map Prod.fst := by
          simp only [List.map_cons, List.nodup_cons] at hnd
          exact ⟨hnd.2, hnd.1⟩
        apply ih.2 rest rel fs2 hsz0.2
          (fun x hx => hwf x (List.mem_cons_of_mem _ hx)) hndr.1
        · obtain ⟨mb, hmb⟩ := hbase
          refine ⟨mb, ?_⟩
          rw [hout _ (not_isPre_child_self _ _)]
          exact hmb
        · intro q hq1 hq2 hq3
          rw [hout]
          · exact hch q hq1 hq2 hq3
          · intro hc
            have hlq := isPre_len _ _ hc
            have hlq2 := isPre_len _ _ hq3
            obtain ⟨t, ht⟩ := hq3
            rcases eq_or_ne t [] with rfl | htne2
            · simp at ht; exact hq2 ht.symm
            · have hpos := List.length_pos.mpr htne2
              have hlen3 := congrArg List.length ht
              simp at hlen3 hlq
              omega
        · intro x hx q hq
          rw [hout]
          · exact hfr x (List.mem_cons_of_mem _ hx) q hq
          · intro hc
            have hx1 : x.1 = n0 := by
              apply isPre_child_inj (toPath ++ rel) x.1 n0 q _ hc
              simpa [List.append_assoc] using hq
            exact hndr.2 (hx1 ▸ List.mem_map_of_mem Prod.fst hx)

/-- Every packed entry's name extends the relative path it was packed
under; under a directory it extends it by at least one segment. -/
theorem packNamesAux (k : Nat) :
    (∀ (n : SNode) (rel : Path) (e : TarEntry), sizeOf n < k →
      e ∈ packTree rel n → isPre rel e.name) ∧
    (∀ (es : List (String × SNode)) (rel : Path) (e : TarEntry),
      sizeOf es < k → e ∈ packList rel es →
      ∃ nm t, e.name = rel ++ [nm] ++ t) := by
  induction k with
  | zero => exact ⟨fun n _ _ h => by omega, fun es _ _ h => by omega⟩
  | succ k ih =>
    constructor
    · intro n rel e hk he
      cases n with
      | file c m =>
        rw [packTree] at he
        simp only [List.mem_singleton] at he
        subst he
        exact isPre_refl rel
      | symlink t =>
        rw [packTree] at he
        simp only [List.mem_singleton] at he
        subst he
        exact isPre_refl rel
      | dir m es =>
        rw [packTree] at he
        rcases List.mem_cons.mp he with rfl | he'
        · exact isPre_refl rel
        · have hsz : sizeOf es < k := by
            have : sizeOf (SNode.dir m es) = 1 + sizeOf m + sizeOf es := by simp
            omega
          obtain ⟨nm, t, hname⟩ := ih.2 es rel e hsz he'
          exact ⟨[nm] ++ t, by rw [hname]; simp⟩
    · intro es rel e hk he
      cases es with
      | nil => rw [packList] at he; exact absurd he (List.not_mem_nil e)
      | cons hd rest =>
        obtain ⟨n0, sub0⟩ := hd
        have hsz : sizeOf sub0 < k ∧ sizeOf rest < k := by
          have h1 := List.cons.sizeOf_spec (n0, sub0) rest
          have h2 : sizeOf (n0, sub0) = 1 + sizeOf n0 + sizeOf sub0 := rfl
          omega
        rw [packList] at he
        rcases List.mem_append.mp he with he' | he'
        · obtain ⟨t, ht⟩ := ih.1 sub0 (rel ++ [n0]) e hsz.1 he'
          exact ⟨n0, t, by rw [ht]⟩
        · obtain ⟨nm, t, hname⟩ := ih.2 rest rel e hsz.2 he'
          exact ⟨nm, t, hname⟩

/-- When `outPath` does not exist, `createSnapshot` writes exactly the
walk's entries. -/
theorem createSnapshot_none_ok (build : List (String × SNode)) :
    createSnapshot none build = .ok (packList [] build) := by
  rw [createSnapshot]
  cases h : packList [] build with
  | nil => rw [writeEntries]
  | cons a l => rw [writeEntries]; rw [if_pos rfl]

/-- C1: round-trip.  For every well-formed staging tree packed by the
snapshotter (`createSnapshot` on a fresh `outPath`) and expanded by
`Expand` into a destination that does not yet exist, the expansion
succeeds; every regular file of the staging tree reappears at the same
relative path with byte-identical content, every symlink reappears with
an identical target string, every directory is recreated, and no
archive entry is emitted for the staging root itself (every entry name
is a nonempty path relative to the staging root). -/
theorem snapshot_roundtrip (build : List (String × SNode)) (dest : Path)
    (hnd : (build.map Prod.fst).Nodup) (hwf : ∀ x ∈ build, WfS x.2)
    (hdest : dest ≠ []) :
    ∃ entries fs',
      createSnapshot none build = .ok entries ∧
      Expand [] (some entries) dest = (fs', none) ∧
      (∀ e ∈ entries, e.name ≠ []) ∧
      (∀ p c m, TreeAt build p (.file c m) →
        lookupFS fs' (dest ++ p) = some (.file c (m % 512))) ∧
      (∀ p t, TreeAt build p (.symlink t) →
        lookupFS fs' (dest ++ p) = some (.symlink t)) ∧
      (∀ p m es2, TreeAt build p (.dir m es2) →
        lookupFS fs' (dest ++ p) = some (.dir (m % 512))) := by
  obtain ⟨fsD, hD⟩ := mkdirAllAux_all_fresh dest [] [] 511
    (fun i _ _ => rfl)
  have hbase : ∃ m, lookupFS fsD dest = some (.dir m) := by
    have := mkdirAllAux_final dest ([] : FS) [] 511 fsD hdest hD
    simpa using this
  have hch : chainDirs fsD dest := by
    intro q hq1 hq2 hq3
    obtain ⟨t, ht⟩ := hq3
    have hlen : q.length ≤ dest.length := by
      have := congrArg List.length ht
      simp at this
      omega
    have := mkdirAllAux_chain_after dest [] ([] : FS) 511 fsD hD q.length
      (List.length_pos.mpr hq1) hlen
    have htake : dest.take q.length = q := by
      rw [ht]
      exact List.take_left q t
    simpa [htake] using this
  have hfr : ∀ x ∈ build, ∀ q, isPre (dest ++ [x.1]) q →
      lookupFS fsD q = none := by
    intro x hx q hq
    have hql : dest.length + 1 ≤ q.length := by
      have := isPre_len _ _ hq
      simpa using this
    have := mkdirAllAux_untouched dest [] ([] : FS) 511 fsD hD q
      (fun i hi hilen hc => by
        have := congrArg List.length hc
        simp only [List.nil_append, List.length_take] at this
        omega)
    rw [this]
    rfl
  have hrun := (untar_packAux (sizeOf build + 1) dest hdest).2 build [] fsD
    (by omega) hwf hnd (by simpa using hbase) (by simpa using hch)
    (by simpa using hfr)
  simp only [List.append_nil] at hrun
  refine ⟨packList [] build, insList fsD dest build,
    createSnapshot_none_ok build, ?_, ?_, ?_, ?_, ?_⟩
  · have hex : existsFS [] dest = false := rfl
    simp only [Expand, hex, Bool.false_eq_true, if_false, mkdirAll]
    rw [hD]
    simp only [hrun]
  · intro e he
    obtain ⟨nm, t, hname⟩ := (packNamesAux (sizeOf build + 1)).2 build [] e
      (by omega) he
    rw [hname]
    simp
  · intro p c m hT
    have := insList_at build fsD dest p (.file c m) hnd hwf hT
    simpa [nodeHead] using this
  · intro p t hT
    have := insList_at build fsD dest p (.symlink t) hnd hwf hT
    simpa [nodeHead] using this
  · intro p m es2 hT
    have := insList_at build fsD dest p (.dir m es2) hnd hwf hT
    simpa [nodeHead] using this

/-- Witness for C1 at a concrete staging tree (one regular file, one
directory holding a symlink) expanded into a fresh destination. -/
theorem snapshot_roundtrip_w :
    ∃ entries fs',
      createSnapshot none
          [("a", SNode.file [1] 6), ("b", SNode.dir 7 [("c", SNode.symlink "t")])] =
        .ok entries ∧
      Expand [] (some entries) ["d"] = (fs', none) ∧
      (∀ e ∈ entries, e.name ≠ []) ∧
      (∀ p c m,
        TreeAt [("a", SNode.file [1] 6), ("b", SNode.dir 7 [("c", SNode.symlink "t")])]
          p (.file c m) →
        lookupFS fs' (["d"] ++ p) = some (.file c (m % 512))) ∧
      (∀ p t,
        TreeAt [("a", SNode.file [1] 6), ("b", SNode.dir 7 [("c", SNode.symlink "t")])]
          p (.symlink t) →
        lookupFS fs' (["d"] ++ p) = some (.symlink t)) ∧
      (∀ p m es2,
        TreeAt [("a", SNode.file [1] 6), ("b", SNode.dir 7 [("c", SNode.symlink "t")])]
          p (.dir m es2) →
        lookupFS fs' (["d"] ++ p) = some (.dir (m % 512))) := by
  apply snapshot_roundtrip
  · decide
  · intro x hx
    rcases List.mem_cons.mp hx with rfl | hx'
    · exact WfS.file _ _
    · rcases List.mem_cons.mp hx' with rfl | hx''
      · refine WfS.dir _ _ (by decide) ?_
        intro p hp
        rcases List.mem_singleton.mp hp with rfl
        exact WfS.symlink _
      · exact absurd hx'' (List.not_mem_nil _)
  · decide

/-! ## The PCI address parser and the read-only source filesystem

The parser `pciaddr.FromString` lives in the `pkg/pci/address` package,
which is not among the sources (only its callers are); it is modelled
from the spec below.  The bus walk and the device-class cloner only
read the live filesystem; that side is modelled as a record of the
system-call results the Go code consumes. -/

/-- A parsed PCI address (four hexadecimal fields). -/
structure PCIAddr where
  domain : String
  bus : String
  device : String
  function : String
  deriving DecidableEq, Repr

/-- A hexadecimal digit. -/
def isHexDig (c : Char) : Bool :=
  c.isDigit || ('a' ≤ c && c ≤ 'f') || ('A' ≤ c && c ≤ 'F')

/-- Modelled from the spec: the `pciaddr.FromString` parser from the
`pkg/pci/address` package, whose source is not in the repository
snapshot (§4.1, §8): the name must decompose exactly as `dddd:dd:dd.d`
— four fixed-width hexadecimal fields separated by `:`, `:`, `.` with
no extra leading or trailing characters; any deviation yields no match
(`none`), never an error. -/
def pciFromString (s : String) : Option PCIAddr :=
  match s.toList with
  | [d1, d2, d3, d4, c1, b1, b2, c2, v1, v2, c3, f1] =>
    if (c1 = ':' ∧ c2 = ':' ∧ c3 = '.') ∧
        ([d1, d2, d3, d4, b1, b2, v1, v2, f1].all isHexDig) then
      some ⟨String.mk [d1, d2, d3, d4], String.mk [b1, b2],
        String.mk [v1, v2], String.mk [f1]⟩
    else none
  | _ => none

/-- A directory entry as reported by `os.ReadDir`. -/
structure PDirEnt where
  name : String
  isDir : Bool
  deriving DecidableEq, Repr

/-- The `os.Lstat` information the walk consumes: whether the node is a
symbolic link. -/
structure PFileInfo where
  isSymlink : Bool
  deriving DecidableEq, Repr

/-- The read-only filesystem interface consumed by the bus walk and the
device-class cloner: results of `os.ReadDir`, `os.Lstat`, `os.Readlink`
(`none` models an error return). -/
structure PFS where
  readDir : Path → Option (List PDirEnt)
  lstat : Path → Option PFileInfo
  readlink : Path → Option String

/-! ## The PCI bus walk (`pciGlobs` and friends, snapshot package) -/

/-- The fixed per-device attribute list of `scanPCIDeviceRoot`. -/
def perDevEntries : List String :=
  ["class", "device", "driver", "irq", "local_cpulist", "modalias",
   "numa_node", "revision", "vendor"]

/-- `findPCIEntryFromPath`: resolve a bus-directory entry.  A
non-symlink entry resolves to itself; a symlink is read and its target
joined to the bus root and cleaned (`filepath.Clean(filepath.Join(root,
target))`). -/
def findPCIEntryFromPath (fs : PFS) (root : Path) (entryName : String) :
    Option Path :=
  let entryPath := root ++ [entryName]
  match fs.lstat entryPath with
  | none => none
  | some fi =>
    if !fi.isSymlink then some entryPath
    else
      match fs.readlink entryPath with
      | none => none
      | some target => some (cleanSegs (root ++ splitPath target))

/-- `isPCIBridge`: a directory is deemed a bridge when it can be listed
and holds at least one subdirectory whose name parses as a PCI address;
an unlistable path is a non-bridge, not an error. -/
def isPCIBridge (fs : PFS) (entryPath : Path) : Bool :=
  match fs.readDir entryPath with
  | none => false
  | some subNodes =>
    subNodes.any fun sn => sn.isDir && (pciFromString sn.name).isSome

/-- The body of `scanPCIDeviceRoot`'s loop over the listed entries, in
order: entries whose name is not a PCI address are skipped silently;
entries that fail to resolve are skipped; for the rest, the entry path
and its nine per-device attribute paths (under the resolved entry) are
emitted, and the resolved entry is enqueued when the entry path is a
bridge. -/
def scanEntries (fs : PFS) (root : Path) :
    List PDirEnt → List Path × List Path
  | [] => ([], [])
  | entry :: rest =>
    let cur : List Path × List Path :=
      if (pciFromString entry.name).isNone then ([], [])
      else
        match findPCIEntryFromPath fs root entry.name with
        | none => ([], [])
        | some pciEntry =>
          ((root ++ [entry.name]) ::
              perDevEntries.map (fun a => pciEntry ++ [a]),
            if isPCIBridge fs (root ++ [entry.name]) then [pciEntry] else [])
    let (specs, roots) := scanEntries fs root rest
    (cur.1 ++ specs, cur.2 ++ roots)

/-- `scanPCIDeviceRoot`: list a bus root and scan its entries; a
listing error yields two empty lists. -/
def scanPCIDeviceRoot (fs : PFS) (root : Path) : List Path × List Path :=
  match fs.readDir root with
  | none => ([], [])
  | some entries => scanEntries fs root entries

/-- The canonical PCI bus root `/sys/bus/pci/devices`. -/
def sysBusPCIDir : Path := ["sys", "bus", "pci", "devices"]

/-- The work-queue loop of `pciGlobs`, with explicit fuel: dequeue a
bus root, scan it, append the produced specs and enqueue the produced
roots, until the queue is empty. -/
def pciGlobsLoop (fs : PFS) : Nat → List Path → List Path → Option (List Path)
  | 0, specs, roots => if roots.isEmpty then some specs else none
  | _ + 1, specs, [] => some specs
  | fuel + 1, specs, root :: rest =>
    let sr := scanPCIDeviceRoot fs root
    pciGlobsLoop fs fuel (specs ++ sr.1) (rest ++ sr.2)

/-- `pciGlobs`: the walk seeded with the static drivers glob and the
canonical bus root. -/
def pciGlobs (fs : PFS) (fuel : Nat) : Option (List Path) :=
  pciGlobsLoop fs fuel [["sys", "bus", "pci", "drivers", "*"]] [sysBusPCIDir]

/-- The same loop instrumented with the list of dequeued bus roots. -/
def pciGlobsLoopTr (fs : PFS) :
    Nat → List Path → List Path → List Path → Option (List Path × List Path)
  | 0, trace, specs, roots =>
    if roots.isEmpty then some (trace, specs) else none
  | _ + 1, trace, specs, [] => some (trace, specs)
  | fuel + 1, trace, specs, root :: rest =>
    let sr := scanPCIDeviceRoot fs root
    pciGlobsLoopTr fs fuel (trace ++ [root]) (specs ++ sr.1) (rest ++ sr.2)

/-- The instrumented loop computes the same specs as `pciGlobsLoop`. -/
theorem pciGlobsLoopTr_specs (fs : PFS) (fuel : Nat) :
    ∀ (trace specs roots : List Path) (trF spF : List Path),
      pciGlobsLoopTr fs fuel trace specs roots = some (trF, spF) →
      pciGlobsLoop fs fuel specs roots = some spF := by
  induction fuel with
  | zero =>
    intro trace specs roots trF spF h
    rw [pciGlobsLoopTr] at h
    rw [pciGlobsLoop]
    rcases hr : roots.isEmpty with hfalse | htrue
    · rw [hr] at h; simp at h
    · rw [hr] at h
      simp only [if_true] at h ⊢
      simp at h
      exact congrArg some h.2
  | succ fuel ih =>
    intro trace specs roots trF spF h
    cases roots with
    | nil =>
      rw [pciGlobsLoopTr] at h
      simp at h
      rw [pciGlobsLoop]
      exact congrArg some h.2
    | cons r rest =>
      rw [pciGlobsLoopTr] at h
      rw [pciGlobsLoop]
      exact ih _ _ _ _ _ h

/-- The specs one listed entry contributes, per the per-device rule:
nothing unless the name parses as a PCI address and the entry resolves;
otherwise the entry's own path plus one path per fixed attribute under
the resolved device directory. -/
def devSpecsOf (fs : PFS) (root : Path) (entry : PDirEnt) : List Path :=
  if (pciFromString entry.name).isNone then []
  else
    match findPCIEntryFromPath fs root entry.name with
    | none => []
    | some pciEntry =>
      (root ++ [entry.name]) :: perDevEntries.map (fun a => pciEntry ++ [a])

/-- The bus roots one listed entry contributes: its resolved directory,
when the entry parses, resolves, and is a bridge. -/
def devRootsOf (fs : PFS) (root : Path) (entry : PDirEnt) : List Path :=
  if (pciFromString entry.name).isNone then []
  else
    match findPCIEntryFromPath fs root entry.name with
    | none => []
    | some pciEntry =>
      if isPCIBridge fs (root ++ [entry.name]) then [pciEntry] else []

theorem isNone_false_isSome {α : Type} (o : Option α)
    (h : o.isNone = false) : o.isSome = true := by
  cases o with
  | none => simp at h
  | some a => rfl

theorem isSome_ne_isNone {α : Type} (o : Option α)
    (h : o.isSome = true) : ¬ o.isNone = true := by
  cases o <;> simp_all

/-- The scan loop is the entrywise union of the per-entry
contributions. -/
theorem scanEntries_eq (fs : PFS) (root : Path) :
    ∀ entries, scanEntries fs root entries =
      (entries.flatMap (devSpecsOf fs root),
        entries.flatMap (devRootsOf fs root)) := by
  intro entries
  induction entries with
  | nil => rfl
  | cons entry rest ih =>
    rw [scanEntries, ih]
    simp only [List.flatMap_cons]
    rw [devSpecsOf, devRootsOf]
    rcases hn : (pciFromString entry.name).isNone with h1 | h1
    · simp only [Bool.false_eq_true, if_false]
      cases hf : findPCIEntryFromPath fs root entry.name <;> rfl
    · rfl

/-- `isPCIBridge` holds exactly when the listing succeeds and holds an
address-named subdirectory. -/
theorem isPCIBridge_iff (fs : PFS) (p : Path) :
    isPCIBridge fs p = true ↔
      ∃ subs, fs.readDir p = some subs ∧
        ∃ sn ∈ subs, sn.isDir = true ∧ (pciFromString sn.name).isSome = true := by
  rw [isPCIBridge]
  cases hr : fs.readDir p with
  | none =>
    simp only [Bool.false_eq_true, false_iff]
    rintro ⟨subs, hsubs, -⟩
    exact absurd hsubs (by simp)
  | some subs =>
    rw [List.any_eq_true]
    constructor
    · rintro ⟨sn, hsn, hpred⟩
      rw [Bool.and_eq_true] at hpred
      exact ⟨subs, rfl, sn, hsn, hpred.1, hpred.2⟩
    · rintro ⟨subs', hsubs', sn, hsn, h1, h2⟩
      obtain rfl : subs = subs' := by
        simpa using hsubs'
      exact ⟨sn, hsn, by rw [Bool.and_eq_true]; exact ⟨h1, h2⟩⟩

/-- C5: per-device emission.  When the bus root lists successfully, the
emitted spec list is exactly the union, over the entries whose name
parses as a PCI address and whose path resolves, of the entry's own
path plus one path per attribute in the fixed list under the resolved
device directory; entries whose names do not parse contribute nothing
(and the scan has no error or warning channel at all — its result is a
plain pair of lists). -/
theorem scan_per_device (fs : PFS) (root : Path) (entries : List PDirEnt)
    (h : fs.readDir root = some entries) :
    (scanPCIDeviceRoot fs root).1 = entries.flatMap (devSpecsOf fs root) ∧
    (∀ entry, (pciFromString entry.name).isNone →
      devSpecsOf fs root entry = [] ∧ devRootsOf fs root entry = []) ∧
    (∀ p, p ∈ (scanPCIDeviceRoot fs root).1 ↔
      ∃ entry ∈ entries, (pciFromString entry.name).isSome = true ∧
        ∃ pciEntry, findPCIEntryFromPath fs root entry.name = some pciEntry ∧
          (p = root ++ [entry.name] ∨
            ∃ a ∈ perDevEntries, p = pciEntry ++ [a])) := by
  have hscan : scanPCIDeviceRoot fs root =
      (entries.flatMap (devSpecsOf fs root),
        entries.flatMap (devRootsOf fs root)) := by
    simp only [scanPCIDeviceRoot, h]
    rw [scanEntries_eq]
  refine ⟨by rw [hscan], ?_, ?_⟩
  · intro entry hnone
    rw [devSpecsOf, devRootsOf, if_pos hnone, if_pos hnone]
    exact ⟨rfl, rfl⟩
  · intro p
    rw [hscan]
    simp only [List.mem_flatMap]
    constructor
    · rintro ⟨entry, hentry, hp⟩
      rw [devSpecsOf] at hp
      rcases hn : (pciFromString entry.name).isNone with h1 | h1
      · rw [hn] at hp
        simp only [Bool.false_eq_true, if_false] at hp
        cases hf : findPCIEntryFromPath fs root entry.name with
        | none => rw [hf] at hp; exact absurd hp (List.not_mem_nil p)
        | some pciEntry =>
          rw [hf] at hp
          refine ⟨entry, hentry, isNone_false_isSome _ hn, pciEntry, hf, ?_⟩
          rcases List.mem_cons.mp hp with rfl | hp'
          · exact Or.inl rfl
          · obtain ⟨a, ha, rfl⟩ := List.mem_map.mp hp'
            exact Or.inr ⟨a, ha, rfl⟩
      · rw [hn] at hp
        simp at hp
    · rintro ⟨entry, hentry, hsome, pciEntry, hf, hp⟩
      refine ⟨entry, hentry, ?_⟩
      rw [devSpecsOf, if_neg (isSome_ne_isNone _ hsome), hf]
      rcases hp with rfl | ⟨a, ha, rfl⟩
      · exact List.mem_cons_self _ _
      · exact List.mem_cons_of_mem _ (List.mem_map_of_mem _ ha)

/-- Per-root enqueue characterization (helper shared by the bridge and
walk claims). -/
theorem scan_roots_mem (fs : PFS) (root : Path) (entries : List PDirEnt)
    (h : fs.readDir root = some entries) :
    ∀ r, r ∈ (scanPCIDeviceRoot fs root).2 ↔
      ∃ entry ∈ entries, (pciFromString entry.name).isSome = true ∧
        findPCIEntryFromPath fs root entry.name = some r ∧
        isPCIBridge fs (root ++ [entry.name]) = true := by
  intro r
  simp only [scanPCIDeviceRoot, h]
  rw [scanEntries_eq]
  simp only [List.mem_flatMap]
  constructor
  · rintro ⟨entry, hentry, hr⟩
    rw [devRootsOf] at hr
    rcases hn : (pciFromString entry.name).isNone with h1 | h1
    · rw [hn] at hr
      simp only [Bool.false_eq_true, if_false] at hr
      cases hf : findPCIEntryFromPath fs root entry.name with
      | none => rw [hf] at hr; exact absurd hr (List.not_mem_nil r)
      | some pciEntry =>
        rw [hf] at hr
        rcases hb : isPCIBridge fs (root ++ [entry.name]) with h2 | h2
        · rw [hb] at hr; simp at hr
        · rw [hb] at hr
          simp only [if_true, List.mem_singleton] at hr
          subst hr
          exact ⟨entry, hentry, isNone_false_isSome _ hn, hf, hb⟩
    · rw [hn] at hr
      simp at hr
  · rintro ⟨entry, hentry, hsome, hf, hb⟩
    refine ⟨entry, hentry, ?_⟩
    rw [devRootsOf, if_neg (isSome_ne_isNone _ hsome), hf, hb]
    simp

/-- C6: bridge heuristic.  Under link transparency of `os.ReadDir` (a
listed entry path and its resolved directory list identically, as on a
real filesystem where `ReadDir` follows the entry symlink), a resolved
device directory is enqueued as a new bus root if and only if some
listed address-named entry resolves to it, listing it succeeds, and it
holds at least one immediate subdirectory whose name parses as a PCI
address; a path that cannot be listed is never a bridge (a non-bridge,
not an error). -/
theorem bridge_enqueue_iff (fs : PFS) (root : Path) (entries : List PDirEnt)
    (h : fs.readDir root = some entries)
    (hlink : ∀ nm r, findPCIEntryFromPath fs root nm = some r →
      fs.readDir (root ++ [nm]) = fs.readDir r) :
    (∀ r, r ∈ (scanPCIDeviceRoot fs root).2 ↔
      ∃ entry ∈ entries, (pciFromString entry.name).isSome = true ∧
        findPCIEntryFromPath fs root entry.name = some r ∧
        ∃ subs, fs.readDir r = some subs ∧
          ∃ sn ∈ subs, sn.isDir = true ∧
            (pciFromString sn.name).isSome = true) ∧
    (∀ p, fs.readDir p = none → isPCIBridge fs p = false) := by
  constructor
  · intro r
    rw [scan_roots_mem fs root entries h r]
    constructor
    · rintro ⟨entry, hentry, hsome, hf, hb⟩
      rw [isPCIBridge_iff] at hb
      obtain ⟨subs, hsubs, hsn⟩ := hb
      rw [hlink entry.name r hf] at hsubs
      exact ⟨entry, hentry, hsome, hf, subs, hsubs, hsn⟩
    · rintro ⟨entry, hentry, hsome, hf, subs, hsubs, hsn⟩
      refine ⟨entry, hentry, hsome, hf, ?_⟩
      rw [isPCIBridge_iff]
      exact ⟨subs, by rw [hlink entry.name r hf]; exact hsubs, hsn⟩
  · intro p hp
    rw [isPCIBridge, hp]

/-- A concrete bus directory: one PCI-address entry (resolving to
itself, no bridge) and one non-address entry. -/
def pfsA : PFS where
  readDir := fun p =>
    if p = ["b"] then some [⟨"0000:00:01.0", false⟩, ⟨"power", false⟩]
    else none
  lstat := fun p =>
    if p = ["b", "0000:00:01.0"] ∨ p = ["b", "power"] then some ⟨false⟩
    else none
  readlink := fun _ => none

/-- Witness for C5 at a concrete bus directory: the hypothesis holds by
computation, the theorem applies, and the resulting spec list evaluates
to the address entry's path plus its nine attribute paths (the `power`
entry contributes nothing). -/
theorem scan_per_device_w :
    pfsA.readDir ["b"] = some [⟨"0000:00:01.0", false⟩, ⟨"power", false⟩] ∧
    (scanPCIDeviceRoot pfsA ["b"]).1 =
      [⟨"0000:00:01.0", false⟩, (⟨"power", false⟩ : PDirEnt)].flatMap
        (devSpecsOf pfsA ["b"]) ∧
    (scanPCIDeviceRoot pfsA ["b"]).1 =
      ["b", "0000:00:01.0"] ::
        perDevEntries.map (fun a => ["b", "0000:00:01.0"] ++ [a]) := by
  refine ⟨rfl, ?_, by decide⟩
  exact (scan_per_device pfsA ["b"]
    [⟨"0000:00:01.0", false⟩, ⟨"power", false⟩] rfl).1

/-- A concrete bus directory whose single address entry is itself a
bridge (it holds an address-named subdirectory). -/
def pfsB : PFS where
  readDir := fun p =>
    if p = ["b"] then some [⟨"0000:00:01.0", true⟩]
    else if p = ["b", "0000:00:01.0"] then some [⟨"0000:01:00.0", true⟩]
    else none
  lstat := fun _ => some ⟨false⟩
  readlink := fun _ => none

/-- Witness for C6 at a concrete bus directory: both hypotheses hold
(resolution is the identity here, so `ReadDir` link transparency is
trivial), and the bridge entry's resolved directory is enqueued. -/
theorem bridge_enqueue_iff_w :
    pfsB.readDir ["b"] = some [⟨"0000:00:01.0", true⟩] ∧
    (["b", "0000:00:01.0"] ∈ (scanPCIDeviceRoot pfsB ["b"]).2 ↔
      ∃ entry ∈ [PDirEnt.mk "0000:00:01.0" true],
        (pciFromString entry.name).isSome = true ∧
        findPCIEntryFromPath pfsB ["b"] entry.name =
          some ["b", "0000:00:01.0"] ∧
        ∃ subs, pfsB.readDir ["b", "0000:00:01.0"] = some subs ∧
          ∃ sn ∈ subs, sn.isDir = true ∧
            (pciFromString sn.name).isSome = true) ∧
    ["b", "0000:00:01.0"] ∈ (scanPCIDeviceRoot pfsB ["b"]).2 := by
  have hlink : ∀ nm r, findPCIEntryFromPath pfsB ["b"] nm = some r →
      pfsB.readDir (["b"] ++ [nm]) = pfsB.readDir r := by
    intro nm r hr
    have hr2 : some ((["b"] : Path) ++ [nm]) = some r := hr
    obtain rfl : (["b"] : Path) ++ [nm] = r := by
      injection hr2
    rfl
  refine ⟨rfl, ?_, by decide⟩
  exact (bridge_enqueue_iff pfsB ["b"] [⟨"0000:00:01.0", true⟩] rfl hlink).1
    ["b", "0000:00:01.0"]

/-! ## The device-class cloner (`cloneContentByClass`, `netGlobs`,
`gpuGlobs`, from the command package) -/

/-- `filterNone` allows all content. -/
def filterNone (_ : String) : Bool := true

/-- The loop body of `cloneContentByClass` over the listed class
entries, in order: an entry is skipped when the name filter rejects its
name, when its symlink cannot be read, or when the link filter rejects
the link target; otherwise the entry's symlink path is emitted followed
by one path per requested attribute under the resolved backing
directory (`filepath.Clean(filepath.Join(sysClass, dest))`). -/
def cloneEntries (fs : PFS) (sysClass : Path) (subEntries : List String)
    (filterName filterLink : String → Bool) : List PDirEnt → List Path
  | [] => []
  | entry :: rest =>
    let cur : List Path :=
      if !filterName entry.name then []
      else
        match fs.readlink (sysClass ++ [entry.name]) with
        | none => []
        | some dest =>
          if !filterLink dest then []
          else
            (sysClass ++ [entry.name]) ::
              subEntries.map
                (fun se => cleanSegs (sysClass ++ splitPath dest) ++ [se])
    cur ++ cloneEntries fs sysClass subEntries filterName filterLink rest

/-- `cloneContentByClass`: list `sys/class/<devClass>` (empty result on
a listing error) and clone the accepted entries. -/
def cloneContentByClass (fs : PFS) (devClass : String)
    (subEntries : List String) (filterName filterLink : String → Bool) :
    List Path :=
  match fs.readDir ["sys", "class", devClass] with
  | none => []
  | some entries =>
    cloneEntries fs ["sys", "class", devClass] subEntries filterName
      filterLink entries

/-- `netGlobs`: clone the network-interface class, keeping only the
`addr_assign_type` attribute and dropping entries backed by the virtual
device subtree. -/
def netGlobs (fs : PFS) : List Path :=
  cloneContentByClass fs "net" ["addr_assign_type"] filterNone
    (fun linkDest =>
      !hasSub linkDest.toList "devices/virtual/net".toList)

/-- `gpuGlobs`: clone the graphics class, keeping only the backing
`device` directory and accepting only primary, non-partitioned `card*`
entries. -/
def gpuGlobs (fs : PFS) : List Path :=
  cloneContentByClass fs "drm" ["device"]
    (fun cardName => cardName.startsWith "card" && !cardName.contains '-')
    filterNone

/-- Entrywise characterization of the clone loop. -/
theorem cloneEntries_eq (fs : PFS) (sysClass : Path)
    (subEntries : List String) (fName fLink : String → Bool)
    (tgt : String → String) :
    ∀ entries : List PDirEnt,
      (∀ e ∈ entries, fs.readlink (sysClass ++ [e.name]) = some (tgt e.name)) →
      cloneEntries fs sysClass subEntries fName fLink entries =
        (entries.filter (fun e => fName e.name && fLink (tgt e.name))).flatMap
          (fun e =>
            (sysClass ++ [e.name]) ::
              subEntries.map (fun se =>
                cleanSegs (sysClass ++ splitPath (tgt e.name)) ++ [se])) := by
  intro entries
  induction entries with
  | nil => intro _; rfl
  | cons entry rest ih =>
    intro hlinks
    have hl := hlinks entry (by simp)
    have ihr := ih (fun e he => hlinks e (List.mem_cons_of_mem _ he))
    rw [List.filter_cons]
    rcases hfn : fName entry.name with h1 | h1
    · simp only [cloneEntries, hfn, Bool.not_false, if_true, ihr,
        Bool.false_and, Bool.false_eq_true, if_false, List.nil_append]
    · rcases hfl : fLink (tgt entry.name) with h2 | h2
      · simp only [cloneEntries, hfn, Bool.not_true, Bool.false_eq_true,
          if_false, hl, hfl, Bool.not_false, if_true, ihr, Bool.true_and,
          List.nil_append]
      · simp only [cloneEntries, hfn, Bool.not_true, Bool.false_eq_true,
          if_false, hl, hfl, ihr, Bool.true_and, if_true,
          List.flatMap_cons, List.cons_append, List.nil_append]

/-- C7: filter composition.  For a device-class directory in which every
entry's link target reads successfully (given by the function `tgt`),
the cloner's output is exactly the entrywise expansion of the entries
accepted by the conjunction of the name filter (on the entry name) and
the link filter (on the link target); in particular the accepted entry
set is the class directory's full entry set filtered by
`filterName name && filterLink target`, so with an accept-all name
filter it is the full set minus the entries whose link target the link
filter rejects (e.g. those containing a marker substring). -/
theorem cloneContentByClass_filter (fs : PFS) (devClass : String)
    (subEntries : List String) (fName fLink : String → Bool)
    (entries : List PDirEnt) (tgt : String → String)
    (h : fs.readDir ["sys", "class", devClass] = some entries)
    (hlinks : ∀ e ∈ entries,
      fs.readlink (["sys", "class", devClass] ++ [e.name]) = some (tgt e.name)) :
    cloneContentByClass fs devClass subEntries fName fLink =
      (entries.filter (fun e => fName e.name && fLink (tgt e.name))).flatMap
        (fun e =>
          (["sys", "class", devClass] ++ [e.name]) ::
            subEntries.map (fun se =>
              cleanSegs (["sys", "class", devClass] ++
                splitPath (tgt e.name)) ++ [se])) ∧
    (∀ e ∈ entries,
      (fName e.name && fLink (tgt e.name)) = true ↔
        e ∈ entries.filter (fun e => fName e.name && fLink (tgt e.name))) := by
  constructor
  · simp only [cloneContentByClass, h]
    exact cloneEntries_eq fs _ subEntries fName fLink tgt entries hlinks
  · intro e he
    rw [List.mem_filter]
    constructor
    · intro hacc
      exact ⟨he, hacc⟩
    · intro hacc
      exact hacc.2

/-- A concrete network class directory: a physical `eth0` and a virtual
`veth1`. -/
def pfsC : PFS where
  readDir := fun p =>
    if p = ["sys", "class", "net"] then
      some [⟨"eth0", false⟩, ⟨"veth1", false⟩]
    else none
  lstat := fun _ => none
  readlink := fun p =>
    if p = ["sys", "class", "net", "eth0"] then
      some "../../devices/pci0/net/eth0"
    else if p = ["sys", "class", "net", "veth1"] then
      some "../../devices/virtual/net/veth1"
    else none

/-- The link targets of `pfsC`'s class entries. -/
def tgtC (nm : String) : String :=
  if nm = "eth0" then "../../devices/pci0/net/eth0"
  else "../../devices/virtual/net/veth1"

/-- Witness for C7 at a concrete class directory, through the `netGlobs`
configuration (accept-all name filter, link filter rejecting the
`devices/virtual/net` marker): the theorem applies, and the output
evaluates to exactly the physical entry's symlink plus its attribute,
the virtual entry being dropped. -/
theorem cloneContentByClass_filter_w :
    pfsC.readDir ["sys", "class", "net"] =
      some [⟨"eth0", false⟩, ⟨"veth1", false⟩] ∧
    netGlobs pfsC =
      ([⟨"eth0", false⟩, (⟨"veth1", false⟩ : PDirEnt)].filter
          (fun e => filterNone e.name &&
            !hasSub (tgtC e.name).toList "devices/virtual/net".toList)).flatMap
        (fun e =>
          (["sys", "class", "net"] ++ [e.name]) ::
            ["addr_assign_type"].map (fun se =>
              cleanSegs (["sys", "class", "net"] ++
                splitPath (tgtC e.name)) ++ [se])) ∧
    netGlobs pfsC =
      [["sys", "class", "net", "eth0"],
        ["sys", "devices", "pci0", "net", "eth0", "addr_assign_type"]] := by
  refine ⟨rfl, ?_, by decide⟩
  exact (cloneContentByClass_filter pfsC "net" ["addr_assign_type"]
    filterNone
    (fun linkDest => !hasSub linkDest.toList "devices/virtual/net".toList)
    [⟨"eth0", false⟩, ⟨"veth1", false⟩] tgtC rfl
    (by
      intro e he
      rcases List.mem_cons.mp he with rfl | he'
      · rfl
      · rcases List.mem_cons.mp he' with rfl | he''
        · rfl
        · exact absurd he'' (List.not_mem_nil _))).1

/-! ## The snapshotter's copy pipeline (`copyFile` and friends)

The live filesystem read by the capture is a record of fallible
system-call results (`filepath.Glob`, `os.Lstat`, `os.Readlink`,
`os.ReadFile`); the staging tree written under the build path is the
mutable `FS` world.  Error values distinguish the two classes the code
inspects with `errors.Is`: `os.ErrPermission` and `os.ErrExist`. -/

/-- An I/O error: permission denied, already-exists, or anything else
(tagged so that distinct other errors stay distinguishable). -/
inductive IOErr where
  | permission
  | exist
  | other (tag : Nat)
  deriving DecidableEq, Repr

/-- The `os.Lstat` information `copyFile` consumes. -/
structure FInfo where
  isDir : Bool
  isSymlink : Bool
  deriving DecidableEq, Repr

/-- The live source filesystem: results of the system calls the capture
pipeline issues against it. -/
structure SrcFS where
  glob : Path → Except IOErr (List Path)
  lstat : Path → Except IOErr FInfo
  readlink : Path → Except IOErr String
  readFile : Path → Except IOErr (List Nat)

/-- `os.Symlink(target, targetPath)` on the staging world: fails with
`ErrExist` when anything is already at `targetPath`, otherwise needs an
existing parent directory. -/
def osSymlink (st : FS) (target : String) (targetPath : Path) :
    Except IOErr FS :=
  match lookupFS st targetPath with
  | some _ => .error .exist
  | none =>
    match lookupFS st targetPath.dropLast with
    | some (.dir _) => .ok (setFS st targetPath (.symlink target))
    | _ => .error (.other 0)

/-- `os.Create` followed by `Write(buf)` on the staging world: truncates
and rewrites an existing regular file (keeping its mode), or creates a
fresh file (mode `0666`) under an existing parent directory. -/
def osCreateWrite (st : FS) (p : Path) (buf : List Nat) : Except IOErr FS :=
  match lookupFS st p with
  | some (.file _ m) => .ok (setFS st p (.file buf m))
  | some _ => .error (.other 1)
  | none =>
    match lookupFS st p.dropLast with
    | some (.dir _) => .ok (setFS st p (.file buf 438))
    | _ => .error (.other 2)

/-- `snapshotter.addDir`: `os.MkdirAll(filepath.Join(buildPath, dir),
os.ModePerm)`. -/
def addDir (buildPath : Path) (st : FS) (dir : Path) : FS × Option IOErr :=
  match mkdirAll st (buildPath ++ dir) 511 with
  | some st' => (st', none)
  | none => (st, some (.other 3))

/-- `copyPseudoFile`: read the whole pseudo-file into memory, then
create the staging file and write the bytes. -/
def copyPseudoFile (src : SrcFS) (st : FS) (path destPath : Path) :
    FS × Option IOErr :=
  match src.readFile path with
  | .error e => (st, some e)
  | .ok buf =>
    match osCreateWrite st destPath buf with
    | .error e => (st, some e)
    | .ok st' => (st', none)

/-- `copyLink`: read the symlink and recreate it at the staging path;
an `ErrExist` from `os.Symlink` is swallowed (`return nil`). -/
def copyLink (src : SrcFS) (st : FS) (path targetPath : Path) :
    FS × Option IOErr :=
  match src.readlink path with
  | .error e => (st, some e)
  | .ok target =>
    match osSymlink st target targetPath with
    | .error e => if e = .exist then (st, none) else (st, some e)
    | .ok st' => (st', none)

/-- `snapshotter.copyFile`: create the parent directory chain in the
staging tree, stat the source path, then: an (address-named) directory
is only materialized when its joined staging path contains the
`drivers` marker (note the code passes the already-joined `destPath`
back through `addDir`, which joins the build path again); a symlink
goes through `copyLink`; anything else goes through `copyPseudoFile`,
whose error is swallowed exactly when it is a permission error. -/
def copyFile (src : SrcFS) (buildPath : Path) (st : FS) (path : Path) :
    FS × Option IOErr :=
  match addDir buildPath st path.dropLast with
  | (st1, some e) => (st1, some e)
  | (st1, none) =>
    match src.lstat path with
    | .error e => (st1, some e)
    | .ok fi =>
      let destPath := buildPath ++ path
      if fi.isDir then
        if destPath.any (fun seg => hasSub seg.toList "drivers".toList) then
          addDir buildPath st1 destPath
        else (st1, none)
      else if fi.isSymlink then
        copyLink src st1 path destPath
      else
        match copyPseudoFile src st1 path destPath with
        | (st2, some e) =>
          if e = .permission then (st2, none) else (st2, some e)
        | (st2, none) => (st2, none)

/-- The inner loop of `copyFileGlobs` over one glob's matches. -/
def copyFilePaths (src : SrcFS) (buildPath : Path) (st : FS) :
    List Path → FS × Option IOErr
  | [] => (st, none)
  | p :: rest =>
    match copyFile src buildPath st p with
    | (st', none) => copyFilePaths src buildPath st' rest
    | (st', some e) => (st', some e)

/-- `snapshotter.copyFileGlobs`: resolve each glob and copy every
match; the first error aborts everything. -/
def copyFileGlobs (src : SrcFS) (buildPath : Path) (st : FS) :
    List Path → FS × Option IOErr
  | [] => (st, none)
  | g :: rest =>
    match src.glob g with
    | .error e => (st, some e)
    | .ok ms =>
      match copyFilePaths src buildPath st ms with
      | (st', none) => copyFileGlobs src buildPath st' rest
      | (st', some e) => (st', some e)

/-- C8: permission skip.  For a resolved path that is a regular file
(not a directory, not a symlink), once the staging parent chain is in
place, a permission-denied error from the per-file content copy
(`copyPseudoFile`, covering both the source read and the staging write)
is tolerated: `copyFile` returns success and the capture loop
continues with the next match; any other error from the content copy is
returned as is, and any error returned by `copyFile` aborts the whole
`copyFileGlobs` run and is handed to the caller. -/
theorem copyFile_permission_skip (src : SrcFS) (buildPath : Path)
    (st st1 : FS) (path : Path) (fi : FInfo)
    (hdir : addDir buildPath st path.dropLast = (st1, none))
    (hstat : src.lstat path = .ok fi)
    (hreg : fi.isDir = false) (hsym : fi.isSymlink = false) :
    (∀ st2, copyPseudoFile src st1 path (buildPath ++ path) =
        (st2, some .permission) →
      copyFile src buildPath st path = (st2, none)) ∧
    (∀ st2 e, e ≠ .permission →
      copyPseudoFile src st1 path (buildPath ++ path) = (st2, some e) →
      copyFile src buildPath st path = (st2, some e)) ∧
    (∀ st2, copyPseudoFile src st1 path (buildPath ++ path) = (st2, none) →
      copyFile src buildPath st path = (st2, none)) ∧
    (∀ (rest : List Path) (st2 : FS) (e : IOErr),
      copyFile src buildPath st path = (st2, some e) →
      copyFilePaths src buildPath st (path :: rest) = (st2, some e)) ∧
    (∀ (rest : List Path) (st2 : FS),
      copyFile src buildPath st path = (st2, none) →
      copyFilePaths src buildPath st (path :: rest) =
        copyFilePaths src buildPath st2 rest) ∧
    (∀ (g : Path) (grest ms : List Path) (st2 : FS) (e : IOErr),
      src.glob g = .ok ms →
      copyFilePaths src buildPath st ms = (st2, some e) →
      copyFileGlobs src buildPath st (g :: grest) = (st2, some e)) := by
  refine ⟨?_, ?_, ?_, ?_, ?_, ?_⟩
  · intro st2 hcp
    simp only [copyFile, hdir, hstat, hreg, hsym, hcp, Bool.false_eq_true,
      if_false]
    rfl
  · intro st2 e hne hcp
    simp only [copyFile, hdir, hstat, hreg, hsym, hcp, Bool.false_eq_true,
      if_false]
    rw [if_neg hne]
  · intro st2 hcp
    simp only [copyFile, hdir, hstat, hreg, hsym, hcp, Bool.false_eq_true,
      if_false]
  · intro rest st2 e hcf
    simp only [copyFilePaths, hcf]
  · intro rest st2 hcf
    simp only [copyFilePaths, hcf]
  · intro g grest ms st2 e hg hps
    simp only [copyFileGlobs, hg, hps]

/-- A concrete live filesystem: `/p/f` is a regular file whose read is
denied. -/
def srcA : SrcFS where
  glob := fun g => if g = ["g1"] then .ok [["p", "f"]] else .error (.other 7)
  lstat := fun p =>
    if p = ["p", "f"] then .ok ⟨false, false⟩ else .error (.other 8)
  readlink := fun _ => .error (.other 9)
  readFile := fun p =>
    if p = ["p", "f"] then .error .permission else .error (.other 5)

/-- Witness for C8 at a concrete capture of a permission-denied
pseudo-file: the parent chain is created, the content copy fails with
permission, and `copyFile` still succeeds (the file is skipped). -/
theorem copyFile_permission_skip_w :
    addDir ["b"] [] (["p", "f"] : Path).dropLast =
      ([(["b", "p"], FNode.dir 511), (["b"], FNode.dir 511)], none) ∧
    srcA.lstat ["p", "f"] = .ok ⟨false, false⟩ ∧
    copyPseudoFile srcA [(["b", "p"], FNode.dir 511), (["b"], FNode.dir 511)]
        ["p", "f"] (["b"] ++ ["p", "f"]) =
      ([(["b", "p"], FNode.dir 511), (["b"], FNode.dir 511)],
        some .permission) ∧
    copyFile srcA ["b"] [] ["p", "f"] =
      ([(["b", "p"], FNode.dir 511), (["b"], FNode.dir 511)], none) := by
  refine ⟨by decide, rfl, by decide, ?_⟩
  exact (copyFile_permission_skip srcA ["b"] []
      [(["b", "p"], FNode.dir 511), (["b"], FNode.dir 511)]
      ["p", "f"] ⟨false, false⟩ (by decide) rfl rfl rfl).1
    _ (by decide)

/-- `mkdirAllAux` is a no-op when the whole chain already consists of
directories. -/
theorem mkdirAllAux_noop (segs : List String) (base : Path) (fs : FS)
    (mode : Nat)
    (h : ∀ i, 0 < i → i ≤ segs.length →
      ∃ m, lookupFS fs (base ++ segs.take i) = some (.dir m)) :
    mkdirAllAux fs base segs mode = some fs := by
  induction segs generalizing base with
  | nil => rfl
  | cons s rest ih =>
    obtain ⟨m, hm⟩ : ∃ m, lookupFS fs (base ++ [s]) = some (.dir m) := by
      have := h 1 (by omega) (by simp only [List.length_cons]; omega)
      simpa using this
    simp only [mkdirAllAux]
    rw [hm]
    apply ih (base ++ [s])
    intro i hi hilen
    have := h (i + 1) (by omega) (by simp only [List.length_cons]; omega)
    simpa [List.append_assoc] using this

/-- C10: symlink materialization is idempotent.  Copying a source
symlink whose staging destination is already occupied succeeds
(`os.Symlink`'s `ErrExist` is swallowed and the state is untouched);
consequently, when two glob patterns resolve to the same symlink path,
the capture materializes the link during the first copy, and the second
copy is a successful no-op, so the two-glob capture succeeds with the
state of a single copy. -/
theorem copyLink_duplicate (src : SrcFS) (buildPath : Path) (st : FS)
    (p : Path) (fi : FInfo) (tgt : String) (hp : p ≠ [])
    (hstat : src.lstat p = .ok fi) (hdirf : fi.isDir = false)
    (hsym : fi.isSymlink = true) (hrl : src.readlink p = .ok tgt) :
    (∀ (st' : FS) (n : FNode), lookupFS st' (buildPath ++ p) = some n →
      copyLink src st' p (buildPath ++ p) = (st', none)) ∧
    (∀ st1, copyFile src buildPath st p = (st1, none) →
      copyFile src buildPath st1 p = (st1, none)) ∧
    (∀ g1 g2 st1, src.glob g1 = .ok [p] → src.glob g2 = .ok [p] →
      copyFile src buildPath st p = (st1, none) →
      copyFileGlobs src buildPath st [g1, g2] = (st1, none)) := by
  have hlink_exists : ∀ (st' : FS) (n : FNode),
      lookupFS st' (buildPath ++ p) = some n →
      copyLink src st' p (buildPath ++ p) = (st', none) := by
    intro st' n hn
    simp only [copyLink, hrl, osSymlink, hn]
    rfl
  have hsecond : ∀ st1, copyFile src buildPath st p = (st1, none) →
      copyFile src buildPath st1 p = (st1, none) := by
    intro st1 h1
    cases had : addDir buildPath st p.dropLast with
    | mk stA e1 =>
      cases e1 with
      | some e =>
        simp only [copyFile, had] at h1
        simp at h1
      | none =>
        simp only [copyFile, had, hstat, hdirf, hsym, Bool.false_eq_true,
          if_false, if_true] at h1
        have hmk : mkdirAll st (buildPath ++ p.dropLast) 511 = some stA := by
          rw [addDir] at had
          cases hmk0 : mkdirAll st (buildPath ++ p.dropLast) 511 with
          | none => rw [hmk0] at had; simp at had
          | some st'' =>
            rw [hmk0] at had
            simp only [Prod.mk.injEq] at had
            rw [had.1]
        have hchainA : ∀ i, 0 < i → i ≤ (buildPath ++ p.dropLast).length →
            ∃ m, lookupFS stA ([] ++ (buildPath ++ p.dropLast).take i) =
              some (.dir m) :=
          mkdirAllAux_chain_after (buildPath ++ p.dropLast) [] st 511 stA hmk
        have hlen : (buildPath ++ p.dropLast).length <
            (buildPath ++ p).length := by
          have := List.length_pos.mpr hp
          simp [List.length_dropLast]
          omega
        -- outcome of the first copyLink: either the destination was
        -- already occupied (ErrExist swallowed, state unchanged) or the
        -- link was created
        have hcase : (st1 = stA ∧
              ∃ n, lookupFS stA (buildPath ++ p) = some n) ∨
            st1 = setFS stA (buildPath ++ p) (.symlink tgt) := by
          simp only [copyLink, hrl] at h1
          cases hos : osSymlink stA tgt (buildPath ++ p) with
          | ok stB =>
            rw [hos] at h1
            simp only [Prod.mk.injEq] at h1
            rw [osSymlink] at hos
            cases hl1 : lookupFS stA (buildPath ++ p) with
            | some n =>
              rw [hl1] at hos
              simp at hos
            | none =>
              rw [hl1] at hos
              cases hl2 : lookupFS stA (buildPath ++ p).dropLast with
              | none =>
                rw [hl2] at hos
                simp at hos
              | some nd =>
                rw [hl2] at hos
                cases nd with
                | dir m2 =>
                  simp only [Except.ok.injEq] at hos
                  right
                  rw [← h1.1, ← hos]
                | file c m2 => simp at hos
                | symlink t2 => simp at hos
          | error e =>
            rw [hos] at h1
            rw [osSymlink] at hos
            cases e with
            | permission => simp at h1
            | exist =>
              simp at h1
              cases hl1 : lookupFS stA (buildPath ++ p) with
              | some n => exact Or.inl ⟨h1.symm, n, rfl⟩
              | none =>
                rw [hl1] at hos
                cases hl2 : lookupFS stA (buildPath ++ p).dropLast with
                | none =>
                  rw [hl2] at hos
                  simp at hos
                | some nd =>
                  rw [hl2] at hos
                  cases nd <;> simp at hos
            | other tag => simp at h1
        -- the destination is occupied after the first copy
        have hocc : ∃ n, lookupFS st1 (buildPath ++ p) = some n := by
          rcases hcase with ⟨hc, n, hn⟩ | hc
          · rw [hc]
            exact ⟨n, hn⟩
          · rw [hc]
            exact ⟨.symlink tgt, by rw [lookupFS_set, if_pos rfl]⟩
        -- chain directories survive into st1
        have hchain1 : ∀ i, 0 < i → i ≤ (buildPath ++ p.dropLast).length →
            ∃ m, lookupFS st1 ((buildPath ++ p.dropLast).take i) =
              some (.dir m) := by
          intro i hi hilen
          obtain ⟨m, hm⟩ := hchainA i hi hilen
          simp only [List.nil_append] at hm
          have hne : (buildPath ++ p.dropLast).take i ≠ buildPath ++ p := by
            intro hc
            have := congrArg List.length hc
            rw [List.length_take] at this
            omega
          rcases hcase with ⟨hc, -⟩ | hc
          · rw [hc]
            exact ⟨m, hm⟩
          · rw [hc]
            refine ⟨m, ?_⟩
            rw [lookupFS_set, if_neg hne]
            exact hm
        have hnoop : addDir buildPath st1 p.dropLast = (st1, none) := by
          rw [addDir, mkdirAll]
          rw [mkdirAllAux_noop _ _ _ _ (by simpa using hchain1)]
        obtain ⟨n1, hn1⟩ := hocc
        simp only [copyFile, hnoop, hstat, hdirf, hsym, Bool.false_eq_true,
          if_false, if_true]
        exact hlink_exists st1 n1 hn1
  refine ⟨hlink_exists, hsecond, ?_⟩
  intro g1 g2 st1 hg1 hg2 h1
  simp only [copyFileGlobs, hg1, hg2, copyFilePaths, h1,
    hsecond st1 h1]

/-- A concrete live filesystem: `/p/l` is a symlink with target
`"tgt"`, matched by two glob patterns. -/
def srcB : SrcFS where
  glob := fun g =>
    if g = ["g1"] ∨ g = ["g2"] then .ok [["p", "l"]] else .error (.other 7)
  lstat := fun p =>
    if p = ["p", "l"] then .ok ⟨false, true⟩ else .error (.other 8)
  readlink := fun p =>
    if p = ["p", "l"] then .ok "tgt" else .error (.other 9)
  readFile := fun _ => .error (.other 5)

/-- Witness for C10 at a concrete capture: two glob patterns resolve to
the same symlink, the capture succeeds, and the final staging tree
holds the link exactly once (the state of a single copy). -/
theorem copyLink_duplicate_w :
    srcB.lstat ["p", "l"] = .ok ⟨false, true⟩ ∧
    srcB.readlink ["p", "l"] = .ok "tgt" ∧
    srcB.glob ["g1"] = .ok [["p", "l"]] ∧
    srcB.glob ["g2"] = .ok [["p", "l"]] ∧
    copyFile srcB ["b"] [] ["p", "l"] =
      ([(["b", "p", "l"], FNode.symlink "tgt"), (["b", "p"], FNode.dir 511),
        (["b"], FNode.dir 511)], none) ∧
    copyFileGlobs srcB ["b"] [] [["g1"], ["g2"]] =
      ([(["b", "p", "l"], FNode.symlink "tgt"), (["b", "p"], FNode.dir 511),
        (["b"], FNode.dir 511)], none) := by
  refine ⟨rfl, rfl, rfl, rfl, by decide, ?_⟩
  exact (copyLink_duplicate srcB ["b"] [] ["p", "l"] ⟨false, true⟩ "tgt"
    (by decide) rfl rfl rfl rfl).2.2 ["g1"] ["g2"] _ rfl rfl (by decide)

/-! ## Claim C4: the bus walk on a finite, acyclic PCI device tree

A finite device tree is modelled as an inductive tree of named entries
(`leaf` = non-directory entry, `node` = directory).  `treeFS` mounts it
at a base path as a `PFS` with no symlinks, so `findPCIEntryFromPath`
resolves every entry to itself.  The spec-side functions `treeDevices`
(the address-named device entries reachable through bridges) and
`sizeT` are defined by structural recursion on the tree. -/

inductive PTree where
  | leaf : PTree
  | node : List (String × PTree) → PTree

/-- Whether a tree node is a directory. -/
def isNodeT : PTree → Bool
  | .leaf => false
  | .node _ => true

/-- Navigate a tree along a relative path. -/
def navT : PTree → List String → Option PTree
  | t, [] => some t
  | .leaf, _ :: _ => none
  | .node es, s :: rest =>
    match es.find? (fun e => decide (e.1 = s)) with
    | none => none
    | some e => navT e.2 rest
termination_by _ p => p.length

/-- Strip the mount base off an absolute path. -/
def stripBase (base p : Path) : Option (List String) :=
  if p.take base.length = base then some (p.drop base.length) else none

/-- The read-only filesystem of a device tree mounted at `base`: paths
under the base resolve through the tree, nothing is a symlink, nothing
else exists. -/
def treeFS (base : Path) (t : PTree) : PFS where
  readDir := fun p =>
    match stripBase base p with
    | none => none
    | some rel =>
      match navT t rel with
      | some (.node es) => some (es.map fun e => ⟨e.1, isNodeT e.2⟩)
      | _ => none
  lstat := fun p =>
    match stripBase base p with
    | none => none
    | some rel =>
      match navT t rel with
      | some _ => some ⟨false⟩
      | none => none
  readlink := fun _ => none

/-- The bridge heuristic on trees: a directory with at least one
address-named subdirectory. -/
def bridgeT : PTree → Bool
  | .leaf => false
  | .node es => es.any fun e => isNodeT e.2 && (pciFromString e.1).isSome

mutual

/-- The address-named device entries of a bus directory reachable
through the bridge heuristic, with their absolute paths. -/
def treeDevices (root : Path) : PTree → List Path
  | .leaf => []
  | .node es => treeDevicesL root es

def treeDevicesL (root : Path) : List (String × PTree) → List Path
  | [] => []
  | (n, sub) :: rest =>
    (if (pciFromString n).isSome then
      (root ++ [n]) ::
        (if bridgeT sub then treeDevices (root ++ [n]) sub else [])
    else []) ++ treeDevicesL root rest

end

mutual

/-- The number of tree nodes (the walk's termination measure). -/
def sizeT : PTree → Nat
  | .leaf => 1
  | .node es => 1 + sizeL es

def sizeL : List (String × PTree) → Nat
  | [] => 0
  | (_, sub) :: rest => sizeT sub + sizeL rest

end

/-- Well-formed device trees: the entry names within each directory are
distinct. -/
inductive WfT : PTree → Prop where
  | leaf : WfT .leaf
  | node (es : List (String × PTree)) : (es.map Prod.fst).Nodup →
      (∀ x ∈ es, WfT x.2) → WfT (.node es)

/-- The devices a queued bus-root path still accounts for. -/
def devsQ (base : Path) (t : PTree) (q : Path) : List Path :=
  match stripBase base q with
  | none => []
  | some rel =>
    match navT t rel with
    | some sub => treeDevices q sub
    | none => []

/-- The subtree size a queued bus-root path accounts for. -/
def subSizeQ (base : Path) (t : PTree) (q : Path) : Nat :=
  match stripBase base q with
  | none => 0
  | some rel =>
    match navT t rel with
    | some sub => sizeT sub
    | none => 0

/-- The termination measure of a queue. -/
def measureQ (base : Path) (t : PTree) (queue : List Path) : Nat :=
  (queue.map (subSizeQ base t)).sum

/-- A path whose last segment parses as a PCI address. -/
def endsAddr (d : Path) : Bool :=
  match d.getLast? with
  | some n => (pciFromString n).isSome
  | none => false

theorem find_name_unique {es : List (String × PTree)} {n : String}
    {sub : PTree} (hnd : (es.map Prod.fst).Nodup) (hmem : (n, sub) ∈ es) :
    es.find? (fun e => decide (e.1 = n)) = some (n, sub) := by
  induction es with
  | nil => exact absurd hmem (List.not_mem_nil _)
  | cons hd rest ih =>
    obtain ⟨n0, sub0⟩ := hd
    simp only [List.map_cons, List.nodup_cons] at hnd
    rcases List.mem_cons.mp hmem with heq | hmem'
    · injection heq with h1 h2
      subst h1; subst h2
      simp [List.find?]
    · have hne : n0 ≠ n := by
        intro hc
        subst hc
        exact hnd.1 (List.mem_map_of_mem Prod.fst hmem')
      rw [List.find?]
      rw [decide_eq_false hne]
      exact ih hnd.2 hmem'

theorem stripBase_append (base p : Path) (rel : List String) (n : String)
    (h : stripBase base p = some rel) :
    stripBase base (p ++ [n]) = some (rel ++ [n]) := by
  rw [stripBase] at h
  by_cases hc : p.take base.length = base
  · rw [if_pos hc] at h
    simp only [Option.some.injEq] at h
    have hlen : base.length ≤ p.length := by
      have := congrArg List.length hc
      rw [List.length_take] at this
      omega
    rw [stripBase, if_pos, List.drop_append_of_le_length hlen, h]
    rw [List.take_append_of_le_length hlen]
    exact hc
  · rw [if_neg hc] at h
    exact absurd h (by simp)

theorem navT_child (rel : List String) (t : PTree)
    (es : List (String × PTree)) (n : String) (sub : PTree)
    (hnav : navT t rel = some (.node es))
    (hfind : es.find? (fun e => decide (e.1 = n)) = some (n, sub)) :
    navT t (rel ++ [n]) = some sub := by
  induction rel generalizing t with
  | nil =>
    simp only [navT, Option.some.injEq] at hnav
    subst hnav
    simp only [List.nil_append, navT, hfind]
  | cons s rest ih =>
    cases t with
    | leaf => simp [navT] at hnav
    | node es0 =>
      rw [List.cons_append, navT]
      rw [navT] at hnav
      cases hf : es0.find? (fun e => decide (e.1 = s)) with
      | none => rw [hf] at hnav; exact absurd hnav (by simp)
      | some e =>
        rw [hf] at hnav
        exact ih e.2 hnav

theorem isNone_true_isSome_false {α : Type} (o : Option α)
    (h : o.isNone = true) : o.isSome = false := by
  cases o <;> simp_all

theorem any_map_comp {α β : Type} (l : List α) (f : α → β) (p : β → Bool) :
    (l.map f).any p = l.any (fun a => p (f a)) := by
  induction l with
  | nil => rfl
  | cons a l2 ih => simp only [List.map_cons, List.any_cons, ih]

theorem treeFS_readDir_node (base p : Path) (t : PTree) (rel : List String)
    (es : List (String × PTree)) (hstrip : stripBase base p = some rel)
    (hnav : navT t rel = some (.node es)) :
    (treeFS base t).readDir p =
      some (es.map fun e => ⟨e.1, isNodeT e.2⟩) := by
  simp [treeFS, hstrip, hnav]

theorem treeFS_readDir_leaf (base p : Path) (t : PTree) (rel : List String)
    (hstrip : stripBase base p = some rel)
    (hnav : navT t rel = some .leaf) :
    (treeFS base t).readDir p = none := by
  simp [treeFS, hstrip, hnav]

theorem treeFS_lstat (base p : Path) (t : PTree) (rel : List String)
    (sub : PTree) (hstrip : stripBase base p = some rel)
    (hnav : navT t rel = some sub) :
    (treeFS base t).lstat p = some ⟨false⟩ := by
  simp [treeFS, hstrip, hnav]

theorem child_resolve (base p : Path) (t : PTree) (rel : List String)
    (es : List (String × PTree)) (n : String) (sub : PTree)
    (hstrip : stripBase base p = some rel)
    (hnav : navT t rel = some (.node es))
    (hnd : (es.map Prod.fst).Nodup) (hmem : (n, sub) ∈ es) :
    findPCIEntryFromPath (treeFS base t) p n = some (p ++ [n]) := by
  have h1 := stripBase_append base p rel n hstrip
  have h2 := navT_child rel t es n sub hnav (find_name_unique hnd hmem)
  rw [findPCIEntryFromPath]
  simp only [treeFS_lstat base (p ++ [n]) t (rel ++ [n]) sub h1 h2,
    Bool.not_false, if_true]

theorem child_bridge (base p : Path) (t : PTree) (rel : List String)
    (es : List (String × PTree)) (n : String) (sub : PTree)
    (hstrip : stripBase base p = some rel)
    (hnav : navT t rel = some (.node es))
    (hnd : (es.map Prod.fst).Nodup) (hmem : (n, sub) ∈ es) :
    isPCIBridge (treeFS base t) (p ++ [n]) = bridgeT sub := by
  have h1 := stripBase_append base p rel n hstrip
  have h2 := navT_child rel t es n sub hnav (find_name_unique hnd hmem)
  cases sub with
  | leaf =>
    rw [isPCIBridge, treeFS_readDir_leaf base (p ++ [n]) t (rel ++ [n]) h1 h2]
    rfl
  | node es2 =>
    rw [isPCIBridge,
      treeFS_readDir_node base (p ++ [n]) t (rel ++ [n]) es2 h1 h2]
    simp only [bridgeT, any_map_comp]

theorem child_devsQ (base p : Path) (t : PTree) (rel : List String)
    (es : List (String × PTree)) (n : String) (sub : PTree)
    (hstrip : stripBase base p = some rel)
    (hnav : navT t rel = some (.node es))
    (hnd : (es.map Prod.fst).Nodup) (hmem : (n, sub) ∈ es) :
    devsQ base t (p ++ [n]) = treeDevices (p ++ [n]) sub := by
  have h1 := stripBase_append base p rel n hstrip
  have h2 := navT_child rel t es n sub hnav (find_name_unique hnd hmem)
  simp only [devsQ, h1, h2]

theorem child_subSize (base p : Path) (t : PTree) (rel : List String)
    (es : List (String × PTree)) (n : String) (sub : PTree)
    (hstrip : stripBase base p = some rel)
    (hnav : navT t rel = some (.node es))
    (hnd : (es.map Prod.fst).Nodup) (hmem : (n, sub) ∈ es) :
    subSizeQ base t (p ++ [n]) = sizeT sub := by
  have h1 := stripBase_append base p rel n hstrip
  have h2 := navT_child rel t es n sub hnav (find_name_unique hnd hmem)
  simp only [subSizeQ, h1, h2]

/-- The specs one tree entry contributes when its bus directory is
scanned. -/
def devSpecT (p : Path) (x : String × PTree) : List Path :=
  if (pciFromString x.1).isSome then
    (p ++ [x.1]) :: perDevEntries.map (fun a => (p ++ [x.1]) ++ [a])
  else []

/-- The bus roots one tree entry contributes. -/
def devRootT (p : Path) (x : String × PTree) : List Path :=
  if (pciFromString x.1).isSome && bridgeT x.2 then [p ++ [x.1]] else []

theorem scanEntries_tree (base p : Path) (t : PTree) (rel : List String)
    (es : List (String × PTree)) (hstrip : stripBase base p = some rel)
    (hnav : navT t rel = some (.node es))
    (hnd : (es.map Prod.fst).Nodup) :
    ∀ l : List (String × PTree), (∀ x ∈ l, x ∈ es) →
      scanEntries (treeFS base t) p (l.map fun e => ⟨e.1, isNodeT e.2⟩) =
        (l.flatMap (devSpecT p), l.flatMap (devRootT p)) := by
  intro l
  induction l with
  | nil => intro _; rfl
  | cons x l2 ih =>
    intro hsub
    obtain ⟨n, sub⟩ := x
    have hmem := hsub (n, sub) (by simp)
    rw [List.map_cons, scanEntries,
      ih (fun y hy => hsub y (List.mem_cons_of_mem _ hy))]
    simp only [List.flatMap_cons]
    rcases ha : (pciFromString n).isNone with h1 | h1
    · -- the name parses as an address
      have hsome : (pciFromString n).isSome = true := isNone_false_isSome _ ha
      simp only [ha, Bool.false_eq_true, if_false,
        child_resolve base p t rel es n sub hstrip hnav hnd hmem,
        child_bridge base p t rel es n sub hstrip hnav hnd hmem]
      rw [devSpecT, devRootT, if_pos hsome]
      cases hb : bridgeT sub with
      | false => simp [hsome, hb]
      | true => simp [hsome, hb]
    · -- not an address: contributes nothing
      have hsome : (pciFromString n).isSome = false := isNone_true_isSome_false _ ha
      simp only [ha, if_true]
      rw [devSpecT, devRootT]
      simp [hsome]

theorem scan_tree (base p : Path) (t : PTree) (rel : List String)
    (es : List (String × PTree)) (hstrip : stripBase base p = some rel)
    (hnav : navT t rel = some (.node es))
    (hnd : (es.map Prod.fst).Nodup) :
    scanPCIDeviceRoot (treeFS base t) p =
      (es.flatMap (devSpecT p), es.flatMap (devRootT p)) := by
  rw [scanPCIDeviceRoot, treeFS_readDir_node base p t rel es hstrip hnav]
  exact scanEntries_tree base p t rel es hstrip hnav hnd es (fun x hx => hx)

theorem scan_tree_leaf (base p : Path) (t : PTree) (rel : List String)
    (hstrip : stripBase base p = some rel)
    (hnav : navT t rel = some .leaf) :
    scanPCIDeviceRoot (treeFS base t) p = ([], []) := by
  rw [scanPCIDeviceRoot, treeFS_readDir_leaf base p t rel hstrip hnav]

theorem perDev_not_addr : ∀ a ∈ perDevEntries, (pciFromString a).isSome = false := by
  decide

theorem endsAddr_snoc (q : Path) (n : String) :
    endsAddr (q ++ [n]) = (pciFromString n).isSome := by
  rw [endsAddr, List.getLast?_concat]

theorem snoc_inj (x y : Path) (a b : String) (h : x ++ [a] = y ++ [b]) :
    x = y ∧ a = b := by
  have hlen : x.length = y.length := by
    have h2 := congrArg List.length h
    simp only [List.length_append, List.length_singleton] at h2
    omega
  obtain ⟨h1, h2⟩ := List.append_inj h hlen
  refine ⟨h1, ?_⟩
  injection h2

theorem isPre_trans (a b c : Path) (h1 : isPre a b) (h2 : isPre b c) :
    isPre a c := by
  obtain ⟨t1, rfl⟩ := h1
  obtain ⟨t2, rfl⟩ := h2
  exact ⟨t1 ++ t2, by simp⟩

theorem navT_nil (t : PTree) : navT t [] = some t := by
  rw [navT]

theorem count_map_snoc (q : Path) (l : List String) (a : String) :
    (l.map (fun x => q ++ [x])).count (q ++ [a]) = l.count a := by
  induction l with
  | nil => rfl
  | cons b l2 ih =>
    rw [List.map_cons, List.count_cons, List.count_cons, ih]
    congr 1
    simp only [beq_iff_eq]
    by_cases hab : b = a
    · subst hab
      rw [if_pos rfl, if_pos rfl]
    · rw [if_neg (fun hc => hab (snoc_inj q q b a hc).2), if_neg hab]

theorem count_one_of_nodup {α : Type} [BEq α] [LawfulBEq α] :
    ∀ (l : List α) (a : α), l.Nodup → a ∈ l → l.count a = 1 := by
  intro l
  induction l with
  | nil =>
    intro a _ ha
    cases ha
  | cons b l2 ih =>
    intro a hnd ha
    rw [List.nodup_cons] at hnd
    rw [List.count_cons]
    rcases List.mem_cons.mp ha with rfl | ha2
    · rw [List.count_eq_zero.mpr hnd.1]
      simp
    · rw [ih a hnd.2 ha2]
      have hba : ¬ ((b == a) = true) := by
        simp only [beq_iff_eq]
        intro hc
        subst hc
        exact hnd.1 ha2
      rw [if_neg hba]

/-- Counting an address-ending device path, or its class-attribute
path, through one entry's specs counts the entry's own path: attribute
paths never end in an address, and distinct devices have distinct
class-attribute paths. -/
theorem count_devSpecT (p : Path) (n : String) (sub : PTree) (d : Path)
    (hd : endsAddr d = true) (s : Path) (hcl : s = [] ∨ s = ["class"]) :
    (devSpecT p (n, sub)).count (d ++ s) =
      (if (pciFromString n).isSome then [p ++ [n]] else []).count d := by
  simp only [devSpecT]
  cases hs : (pciFromString n).isSome with
  | false => rfl
  | true =>
    rw [if_pos rfl, if_pos rfl]
    rw [List.count_cons, List.count_cons, List.count_nil]
    rcases hcl with rfl | rfl
    · rw [List.append_nil]
      have hz : (perDevEntries.map (fun a => (p ++ [n]) ++ [a])).count d = 0 := by
        rw [List.count_eq_zero]
        intro hmem
        obtain ⟨a, ha, rfl⟩ := List.mem_map.mp hmem
        rw [endsAddr_snoc, perDev_not_addr a ha] at hd
        exact absurd hd (by simp)
      rw [hz]
    · simp only [beq_iff_eq]
      have hne : ¬ (p ++ [n] = d ++ ["class"]) := by
        intro hc
        have h2 := congrArg endsAddr hc
        rw [endsAddr_snoc, endsAddr_snoc, hs] at h2
        exact absurd h2.symm (by decide)
      rw [if_neg hne]
      by_cases hdp : d = p ++ [n]
      · rw [hdp, if_pos rfl]
        rw [count_map_snoc (p ++ [n]) perDevEntries "class"]
        decide
      · rw [if_neg (fun hc => hdp hc.symm)]
        have hz : (perDevEntries.map (fun a => (p ++ [n]) ++ [a])).count
            (d ++ ["class"]) = 0 := by
          rw [List.count_eq_zero]
          intro hmem
          obtain ⟨a, ha, heq⟩ := List.mem_map.mp hmem
          exact hdp (snoc_inj (p ++ [n]) d a "class" heq).1.symm
        rw [hz]

theorem devRootT_mem (p : Path) (l : List (String × PTree)) (r : Path)
    (hr : r ∈ l.flatMap (devRootT p)) :
    ∃ n sub, (n, sub) ∈ l ∧ r = p ++ [n] := by
  obtain ⟨x, hx, hrx⟩ := List.mem_flatMap.mp hr
  rw [devRootT] at hrx
  rcases hb : ((pciFromString x.1).isSome && bridgeT x.2) with h1 | h1
  · rw [hb] at hrx; simp at hrx
  · rw [hb] at hrx
    simp only [if_true, List.mem_singleton] at hrx
    exact ⟨x.1, x.2, by simpa using hx, hrx⟩

theorem child_incomp (p : Path) (a b : String) (hne : a ≠ b) :
    ¬ isPre (p ++ [a]) (p ++ [b]) ∧ ¬ isPre (p ++ [b]) (p ++ [a]) :=
  ⟨fun h => hne (isPre_child_child p a b h),
    fun h => hne (isPre_child_child p b a h).symm⟩

theorem devRootT_pairwise (p : Path) (l : List (String × PTree))
    (hnd : (l.map Prod.fst).Nodup) :
    (l.flatMap (devRootT p)).Pairwise
      (fun a b => ¬ isPre a b ∧ ¬ isPre b a) := by
  induction l with
  | nil => exact List.Pairwise.nil
  | cons x l2 ih =>
    obtain ⟨n, sub⟩ := x
    simp only [List.map_cons, List.nodup_cons] at hnd
    rw [List.flatMap_cons, List.pairwise_append]
    refine ⟨?_, ih hnd.2, ?_⟩
    · rw [devRootT]
      rcases hb : ((pciFromString n).isSome && bridgeT sub) with h1 | h1 <;>
        simp
    · intro a ha b hb2
      rw [devRootT] at ha
      rcases hb : ((pciFromString n).isSome && bridgeT sub) with h1 | h1
      · rw [hb] at ha; simp at ha
      · rw [hb] at ha
        simp only [if_true, List.mem_singleton] at ha
        subst ha
        obtain ⟨n2, sub2, hmem2, rfl⟩ := devRootT_mem p l2 b hb2
        refine child_incomp p n n2 ?_
        intro hc
        subst hc
        exact hnd.1 (List.mem_map_of_mem Prod.fst hmem2)

theorem isPre_iff_take (p q : Path) : isPre p q ↔ q.take p.length = p := by
  constructor
  · rintro ⟨t, rfl⟩
    exact List.take_left p t
  · intro h
    refine ⟨q.drop p.length, ?_⟩
    conv_lhs => rw [← List.take_append_drop p.length q]
    rw [h]

theorem isPre_total (a b c : Path) (ha : isPre a c) (hb : isPre b c) :
    isPre a b ∨ isPre b a := by
  rw [isPre_iff_take] at ha hb
  rcases le_or_lt a.length b.length with hl | hl
  · left
    rw [isPre_iff_take, ← hb, List.take_take, min_eq_left hl, ha]
  · right
    rw [isPre_iff_take, ← ha, List.take_take, min_eq_left (le_of_lt hl), hb]

theorem sizeT_pos (t : PTree) : 1 ≤ sizeT t := by
  cases t <;> simp [sizeT]

/-- Accounting step for the coverage invariant: the specs emitted for a
scanned bus directory plus the devices its enqueued bridge children
still account for are exactly the devices of its subtree. -/
theorem step_count (base : Path) (t : PTree) (p : Path) (rel : List String)
    (es : List (String × PTree)) (hstrip : stripBase base p = some rel)
    (hnav : navT t rel = some (.node es)) (hnd : (es.map Prod.fst).Nodup)
    (d : Path) (hd : endsAddr d = true) (s : Path)
    (hcl : s = [] ∨ s = ["class"]) :
    ∀ l : List (String × PTree), (∀ x ∈ l, x ∈ es) →
      (l.flatMap (devSpecT p)).count (d ++ s) +
        ((l.flatMap (devRootT p)).map (fun r => (devsQ base t r).count d)).sum =
      (treeDevicesL p l).count d := by
  intro l
  induction l with
  | nil => intro _; rfl
  | cons x l2 ih =>
    intro hsub
    obtain ⟨n, sub⟩ := x
    have hmem := hsub (n, sub) (by simp)
    have ihr := ih (fun y hy => hsub y (List.mem_cons_of_mem _ hy))
    rw [List.flatMap_cons, List.flatMap_cons, treeDevicesL]
    rw [List.count_append, List.count_append, List.map_append, List.sum_append]
    have hc1 := count_devSpecT p n sub d hd s hcl
    cases hs : (pciFromString n).isSome with
    | false =>
      rw [if_neg (by rw [hs]; exact Bool.false_ne_true)] at hc1
      rw [List.count_nil] at hc1
      have hroot : devRootT p (n, sub) = [] := by
        simp only [devRootT, hs, Bool.false_and, Bool.false_eq_true, if_false]
      rw [hc1, hroot]
      rw [if_neg Bool.false_ne_true]
      simp only [List.map_nil, List.sum_nil, List.nil_append, List.count_nil]
      omega
    | true =>
      rw [if_pos (by rw [hs])] at hc1
      rw [hc1, List.count_cons, List.count_nil]
      have hdev := child_devsQ base p t rel es n sub hstrip hnav hnd hmem
      rw [if_pos rfl]
      cases hb : bridgeT sub with
      | false =>
        have hroot : devRootT p (n, sub) = [] := by
          simp only [devRootT, hs, hb, Bool.and_false, Bool.false_eq_true,
            if_false]
        rw [hroot]
        rw [if_neg Bool.false_ne_true]
        rw [List.count_cons, List.count_nil]
        simp only [List.map_nil, List.sum_nil]
        omega
      | true =>
        have hroot : devRootT p (n, sub) = [p ++ [n]] := by
          simp only [devRootT, hs, hb, Bool.and_self, if_true]
        rw [hroot]
        rw [if_pos rfl]
        rw [List.map_cons, List.sum_cons, List.map_nil, List.sum_nil]
        rw [hdev, List.count_cons]
        omega

/-- Accounting step for the termination measure: the subtrees of the
enqueued bridge children are strictly contained in the scanned
subtree. -/
theorem step_measure (base : Path) (t : PTree) (p : Path) (rel : List String)
    (es : List (String × PTree)) (hstrip : stripBase base p = some rel)
    (hnav : navT t rel = some (.node es)) (hnd : (es.map Prod.fst).Nodup) :
    ∀ l : List (String × PTree), (∀ x ∈ l, x ∈ es) →
      ((l.flatMap (devRootT p)).map (subSizeQ base t)).sum ≤ sizeL l := by
  intro l
  induction l with
  | nil => intro _; simp [sizeL]
  | cons x l2 ih =>
    intro hsub
    obtain ⟨n, sub⟩ := x
    have hmem := hsub (n, sub) (by simp)
    have ihr := ih (fun y hy => hsub y (List.mem_cons_of_mem _ hy))
    rw [List.flatMap_cons, List.map_append, List.sum_append, sizeL]
    rcases hb : ((pciFromString n).isSome && bridgeT sub) with h1 | h1
    · have hroot : devRootT p (n, sub) = [] := by
        simp only [devRootT, hb, Bool.false_eq_true, if_false]
      rw [hroot]
      simp only [List.map_nil, List.sum_nil]
      omega
    · have hroot : devRootT p (n, sub) = [p ++ [n]] := by
        simp only [devRootT, hb, if_true]
      rw [hroot]
      rw [List.map_cons, List.sum_cons, List.map_nil, List.sum_nil]
      rw [child_subSize base p t rel es n sub hstrip hnav hnd hmem]
      omega

/-- Structure of the device list of a well-formed tree: no duplicates,
every device path ends in an address-named segment and lies strictly
below its bus root, and the list-level version exposes the child name
it descends through. -/
theorem treeDevices_factsAux (k : Nat) :
    (∀ t : PTree, sizeOf t < k → WfT t → ∀ root : Path,
      (treeDevices root t).Nodup ∧
      ∀ d ∈ treeDevices root t,
        endsAddr d = true ∧ isPre root d ∧ root ≠ d) ∧
    (∀ es : List (String × PTree), sizeOf es < k →
      (es.map Prod.fst).Nodup → (∀ x ∈ es, WfT x.2) → ∀ root : Path,
      (treeDevicesL root es).Nodup ∧
      ∀ d ∈ treeDevicesL root es, endsAddr d = true ∧
        ∃ n t2, n ∈ es.map Prod.fst ∧ d = root ++ [n] ++ t2) := by
  induction k with
  | zero => exact ⟨fun t h => by omega, fun es h => by omega⟩
  | succ k ih =>
    constructor
    · intro t hk hwf root
      cases t with
      | leaf => exact ⟨List.Pairwise.nil, by intro d hd; simp [treeDevices] at hd⟩
      | node es =>
        cases hwf with
        | node _ hnd hall =>
          have hsz : sizeOf es < k := by
            have : sizeOf (PTree.node es) = 1 + sizeOf es := by simp
            omega
          obtain ⟨h1, h2⟩ := ih.2 es hsz hnd hall root
          rw [treeDevices]
          refine ⟨h1, ?_⟩
          intro d hd
          obtain ⟨hA, n, t2, hmemn, rfl⟩ := h2 d hd
          refine ⟨hA, ⟨[n] ++ t2, by simp⟩, ?_⟩
          intro hc
          have := congrArg List.length hc
          simp at this
    · intro es hk hnd hall root
      cases es with
      | nil =>
        refine ⟨List.Pairwise.nil, ?_⟩
        intro d hd
        rw [treeDevicesL] at hd
        exact absurd hd (List.not_mem_nil d)
      | cons x l2 =>
        obtain ⟨n, sub⟩ := x
        simp only [List.map_cons, List.nodup_cons] at hnd
        have hszs : sizeOf sub < k ∧ sizeOf l2 < k := by
          have h1 := List.cons.sizeOf_spec (n, sub) l2
          have h2 : sizeOf (n, sub) = 1 + sizeOf n + sizeOf sub := rfl
          omega
        have hwfs : WfT sub := hall (n, sub) (by simp)
        obtain ⟨hT1, hT2⟩ := ih.1 sub hszs.1 hwfs (root ++ [n])
        obtain ⟨hL1, hL2⟩ := ih.2 l2 hszs.2 hnd.2
          (fun x hx => hall x (List.mem_cons_of_mem _ hx)) root
        rw [treeDevicesL]
        -- the head block
        have hblock : ∀ d ∈ (if (pciFromString n).isSome then
            (root ++ [n]) ::
              (if bridgeT sub then treeDevices (root ++ [n]) sub else [])
            else []),
            endsAddr d = true ∧ ∃ t2, d = root ++ [n] ++ t2 := by
          intro d hd
          rcases hs : (pciFromString n).isSome with h1 | h1
          · rw [hs] at hd; simp at hd
          · rw [hs] at hd
            simp only [if_true] at hd
            rcases List.mem_cons.mp hd with rfl | hd'
            · exact ⟨by rw [endsAddr_snoc, hs], [], by simp⟩
            · rcases hbr : bridgeT sub with h2 | h2
              · rw [hbr] at hd'; simp at hd'
              · rw [hbr] at hd'
                simp only [if_true] at hd'
                obtain ⟨hA, hpre, hne⟩ := hT2 d hd'
                obtain ⟨t2, rfl⟩ := hpre
                exact ⟨hA, t2, by simp⟩
        have hblocknd : (if (pciFromString n).isSome then
            (root ++ [n]) ::
              (if bridgeT sub then treeDevices (root ++ [n]) sub else [])
            else []).Nodup := by
          rcases hs : (pciFromString n).isSome with h1 | h1
          · simp
          · simp only [if_true]
            rw [List.nodup_cons]
            constructor
            · intro hmem
              rcases hbr : bridgeT sub with h2 | h2
              · rw [hbr] at hmem; simp at hmem
              · rw [hbr] at hmem
                simp only [if_true] at hmem
                exact (hT2 _ hmem).2.2 rfl
            · rcases hbr : bridgeT sub with h2 | h2
              · simp
              · simp only [if_true]
                exact hT1
        constructor
        · rw [List.nodup_append]
          refine ⟨hblocknd, hL1, ?_⟩
          intro d1 hd1 hd2
          obtain ⟨-, t2, rfl⟩ := hblock d1 hd1
          obtain ⟨-, n2, t3, hmem2, hc⟩ := hL2 _ hd2
          simp only [List.append_assoc, List.append_cancel_left_eq] at hc
          simp only [List.singleton_append, List.cons.injEq] at hc
          exact hnd.1 (by rw [hc.1]; exact hmem2)
        · intro d hd
          rcases List.mem_append.mp hd with hd' | hd'
          · obtain ⟨hA, t2, rfl⟩ := hblock d hd'
            exact ⟨hA, n, t2, by simp⟩
          · obtain ⟨hA, n2, t3, hmem2, rfl⟩ := hL2 d hd'
            exact ⟨hA, n2, t3, by simp [hmem2]⟩

/-- Master invariant of the instrumented work-queue loop over a mounted
device tree: with enough fuel (the measure of the queue), a queue of
pairwise-incomparable, resolvable bus roots none of which lies at or
below an already-dequeued root runs to completion, the dequeue trace
stays duplicate-free, and the final spec list counts each address-ending
path (and its class-attribute path) as the initial specs plus the
devices the queue still accounts for. -/
theorem pci_loopAux (base : Path) (t : PTree) :
    ∀ (fuel : Nat) (trace specs queue : List Path),
      measureQ base t queue ≤ fuel →
      (∀ q ∈ queue, ∃ rel sub, stripBase base q = some rel ∧
        navT t rel = some sub ∧ WfT sub) →
      queue.Pairwise (fun a b => ¬ isPre a b ∧ ¬ isPre b a) →
      trace.Nodup →
      (∀ tr ∈ trace, ∀ q ∈ queue, ¬ isPre q tr) →
      ∃ trF spF,
        pciGlobsLoopTr (treeFS base t) fuel trace specs queue =
          some (trF, spF) ∧
        trF.Nodup ∧
        ∀ d s, endsAddr d = true → (s = [] ∨ s = ["class"]) →
          spF.count (d ++ s) = specs.count (d ++ s) +
            (queue.map (fun q => (devsQ base t q).count d)).sum := by
  intro fuel
  induction fuel with
  | zero =>
    intro trace specs queue hm hq hpw htnd htq
    cases queue with
    | nil =>
      refine ⟨trace, specs, ?_, htnd, ?_⟩
      · rw [pciGlobsLoopTr]
        rfl
      · intro d s hd hs
        simp
    | cons p rest =>
      exfalso
      obtain ⟨rel, sub, hstrip, hnav, hw⟩ := hq p (by simp)
      have h1 : 1 ≤ subSizeQ base t p := by
        simp only [subSizeQ, hstrip, hnav]
        exact sizeT_pos sub
      rw [measureQ] at hm
      simp only [List.map_cons, List.sum_cons] at hm
      omega
  | succ fuel ih =>
    intro trace specs queue hm hq hpw htnd htq
    cases queue with
    | nil =>
      refine ⟨trace, specs, ?_, htnd, ?_⟩
      · rw [pciGlobsLoopTr]
      · intro d s hd hs
        simp
    | cons p rest =>
      obtain ⟨rel, sub, hstrip, hnav, hw⟩ := hq p (by simp)
      have hppre : ∀ q ∈ rest, ¬ isPre p q ∧ ¬ isPre q p :=
        (List.pairwise_cons.mp hpw).1
      have hrestpw := (List.pairwise_cons.mp hpw).2
      have hnotin : p ∉ trace :=
        fun hmem => htq p hmem p (by simp) (isPre_refl p)
      have htnd2 : (trace ++ [p]).Nodup :=
        htnd.append (List.nodup_singleton p)
          (fun a ha hb => hnotin (List.mem_singleton.mp hb ▸ ha))
      cases sub with
      | leaf =>
        have hscan := scan_tree_leaf base p t rel hstrip hnav
        have hscan1 : (scanPCIDeviceRoot (treeFS base t) p).1 = [] := by
          rw [hscan]
        have hscan2 : (scanPCIDeviceRoot (treeFS base t) p).2 = [] := by
          rw [hscan]
        have hsub : measureQ base t rest ≤ fuel := by
          rw [measureQ] at hm ⊢
          simp only [List.map_cons, List.sum_cons] at hm
          have h1 : subSizeQ base t p = 1 := by
            simp only [subSizeQ, hstrip, hnav, sizeT]
          omega
        obtain ⟨trF, spF, hrun, hndF, hcount⟩ := ih (trace ++ [p]) specs rest
          hsub (fun q hq2 => hq q (List.mem_cons_of_mem _ hq2)) hrestpw htnd2
          (by
            intro tr htr q hq2
            rcases List.mem_append.mp htr with htr' | htr'
            · exact htq tr htr' q (List.mem_cons_of_mem _ hq2)
            · rw [List.mem_singleton.mp htr']
              exact (hppre q hq2).2)
        refine ⟨trF, spF, ?_, hndF, ?_⟩
        · rw [pciGlobsLoopTr]
          simp only [hscan1, hscan2, List.append_nil]
          exact hrun
        · intro d s hd hs
          have hc := hcount d s hd hs
          rw [List.map_cons, List.sum_cons]
          have hdevp : devsQ base t p = [] := by
            simp only [devsQ, hstrip, hnav, treeDevices]
          rw [hdevp, List.count_nil]
          omega
      | node es =>
        cases hw with
        | node _ hnd hall =>
        have hscan := scan_tree base p t rel es hstrip hnav hnd
        have hscan1 : (scanPCIDeviceRoot (treeFS base t) p).1 =
            es.flatMap (devSpecT p) := by
          rw [hscan]
        have hscan2 : (scanPCIDeviceRoot (treeFS base t) p).2 =
            es.flatMap (devRootT p) := by
          rw [hscan]
        have hqok : ∀ q2 ∈ rest ++ es.flatMap (devRootT p),
            ∃ rel2 sub2, stripBase base q2 = some rel2 ∧
              navT t rel2 = some sub2 ∧ WfT sub2 := by
          intro q2 hq2
          rcases List.mem_append.mp hq2 with h | h
          · exact hq q2 (List.mem_cons_of_mem _ h)
          · obtain ⟨n, sub2, hmem, rfl⟩ := devRootT_mem p es q2 h
            exact ⟨rel ++ [n], sub2, stripBase_append base p rel n hstrip,
              navT_child rel t es n sub2 hnav (find_name_unique hnd hmem),
              hall (n, sub2) hmem⟩
        have hpw2 : (rest ++ es.flatMap (devRootT p)).Pairwise
            (fun a b => ¬ isPre a b ∧ ¬ isPre b a) := by
          rw [List.pairwise_append]
          refine ⟨hrestpw, devRootT_pairwise p es hnd, ?_⟩
          intro a ha b hb
          obtain ⟨n, sub2, hmem, rfl⟩ := devRootT_mem p es b hb
          have hap := hppre a ha
          constructor
          · intro hc
            rcases isPre_total a p (p ++ [n]) hc (isPre_append p [n]) with
              h | h
            · exact hap.2 h
            · exact hap.1 h
          · intro hc
            exact hap.1 (isPre_trans p (p ++ [n]) a (isPre_append p [n]) hc)
        have htq2 : ∀ tr ∈ trace ++ [p],
            ∀ q2 ∈ rest ++ es.flatMap (devRootT p), ¬ isPre q2 tr := by
          intro tr htr q2 hq2
          rcases List.mem_append.mp htr with htr' | htr'
          · rcases List.mem_append.mp hq2 with h | h
            · exact htq tr htr' q2 (List.mem_cons_of_mem _ h)
            · obtain ⟨n, sub2, hmem, rfl⟩ := devRootT_mem p es q2 h
              intro hc
              exact htq tr htr' p (by simp)
                (isPre_trans p (p ++ [n]) tr (isPre_append p [n]) hc)
          · rw [List.mem_singleton.mp htr']
            rcases List.mem_append.mp hq2 with h | h
            · exact (hppre q2 h).2
            · obtain ⟨n, sub2, hmem, rfl⟩ := devRootT_mem p es q2 h
              exact not_isPre_child_self p n
        have hmeas : measureQ base t (rest ++ es.flatMap (devRootT p)) ≤
            fuel := by
          rw [measureQ] at hm ⊢
          rw [List.map_append, List.sum_append]
          simp only [List.map_cons, List.sum_cons] at hm
          have h1 : subSizeQ base t p = 1 + sizeL es := by
            simp only [subSizeQ, hstrip, hnav, sizeT]
          have h2 := step_measure base t p rel es hstrip hnav hnd es
            (fun x hx => hx)
          omega
        obtain ⟨trF, spF, hrun, hndF, hcount⟩ :=
          ih (trace ++ [p]) (specs ++ es.flatMap (devSpecT p))
            (rest ++ es.flatMap (devRootT p)) hmeas hqok hpw2 htnd2 htq2
        refine ⟨trF, spF, ?_, hndF, ?_⟩
        · rw [pciGlobsLoopTr]
          simp only [hscan1, hscan2]
          exact hrun
        · intro d s hd hs
          have hc := hcount d s hd hs
          rw [List.count_append] at hc
          rw [List.map_append, List.sum_append] at hc
          rw [List.map_cons, List.sum_cons]
          have hstep := step_count base t p rel es hstrip hnav hnd d hd s hs
            es (fun x hx => hx)
          have hdevp : devsQ base t p = treeDevicesL p es := by
            simp only [devsQ, hstrip, hnav, treeDevices]
          rw [hdevp]
          omega

/-- C4: Bus walk termination and coverage — for every finite,
well-formed (hence acyclic) device tree mounted at the canonical sysfs
bus directory, the work-queue walk of `pciGlobs` terminates within fuel
equal to the tree's node count, the trace of dequeued bus roots is
duplicate-free (each bus-root directory is scanned at most once), and
the resulting spec list contains the path of every address-named device
entry of the tree, and its class-attribute path, exactly once. -/
theorem pci_bus_walk (t : PTree) (hwf : WfT t) :
    ∃ trF spF,
      pciGlobsLoopTr (treeFS sysBusPCIDir t) (sizeT t) []
        [["sys", "bus", "pci", "drivers", "*"]] [sysBusPCIDir] =
        some (trF, spF) ∧
      pciGlobs (treeFS sysBusPCIDir t) (sizeT t) = some spF ∧
      trF.Nodup ∧
      ∀ d ∈ treeDevices sysBusPCIDir t,
        spF.count d = 1 ∧ spF.count (d ++ ["class"]) = 1 := by
  have hstrip0 : stripBase sysBusPCIDir sysBusPCIDir = some [] := by decide
  have hq0 : ∀ q ∈ [sysBusPCIDir], ∃ rel sub,
      stripBase sysBusPCIDir q = some rel ∧ navT t rel = some sub ∧
      WfT sub := by
    intro q hq
    rw [List.mem_singleton] at hq
    subst hq
    exact ⟨[], t, hstrip0, navT_nil t, hwf⟩
  have hm0 : measureQ sysBusPCIDir t [sysBusPCIDir] ≤ sizeT t := by
    rw [measureQ]
    simp only [List.map_cons, List.map_nil, List.sum_cons, List.sum_nil]
    have h1 : subSizeQ sysBusPCIDir t sysBusPCIDir = sizeT t := by
      simp only [subSizeQ, hstrip0, navT_nil]
    omega
  have hpw0 : ([sysBusPCIDir] : List Path).Pairwise
      (fun a b => ¬ isPre a b ∧ ¬ isPre b a) := by
    refine List.Pairwise.cons ?_ List.Pairwise.nil
    intro b hb
    exact absurd hb (List.not_mem_nil b)
  obtain ⟨trF, spF, hrun, hndF, hcount⟩ :=
    pci_loopAux sysBusPCIDir t (sizeT t) []
      [["sys", "bus", "pci", "drivers", "*"]] [sysBusPCIDir]
      hm0 hq0 hpw0 List.nodup_nil
      (by intro tr htr; exact absurd htr (List.not_mem_nil tr))
  refine ⟨trF, spF, hrun, ?_, hndF, ?_⟩
  · rw [pciGlobs]
    exact pciGlobsLoopTr_specs _ _ _ _ _ _ _ hrun
  · intro d hd
    obtain ⟨hdevnd, hfact⟩ := (treeDevices_factsAux (sizeOf t + 1)).1 t
      (by omega) hwf sysBusPCIDir
    obtain ⟨hA, hpre, hneq⟩ := hfact d hd
    have hone : (treeDevices sysBusPCIDir t).count d = 1 :=
      count_one_of_nodup _ d hdevnd hd
    have hdev0 : devsQ sysBusPCIDir t sysBusPCIDir =
        treeDevices sysBusPCIDir t := by
      simp only [devsQ, hstrip0, navT_nil]
    have hg1 : ([["sys", "bus", "pci", "drivers", "*"]] : List Path).count
        d = 0 := by
      rw [List.count_eq_zero, List.mem_singleton]
      intro hc
      have h2 := congrArg endsAddr hc
      rw [hA] at h2
      exact absurd h2.symm (by decide)
    have hg2 : ([["sys", "bus", "pci", "drivers", "*"]] : List Path).count
        (d ++ ["class"]) = 0 := by
      rw [List.count_eq_zero, List.mem_singleton]
      intro hc
      obtain ⟨u, rfl⟩ := hpre
      rw [List.append_assoc] at hc
      have h5 := congrArg (List.take 4) hc
      have h6 : (sysBusPCIDir ++ (u ++ ["class"])).take 4 = sysBusPCIDir :=
        List.take_left sysBusPCIDir (u ++ ["class"])
      rw [h6] at h5
      exact absurd h5 (by decide)
    have hc1 := hcount d [] hA (Or.inl rfl)
    have hc2 := hcount d ["class"] hA (Or.inr rfl)
    rw [List.append_nil] at hc1
    simp only [List.map_cons, List.map_nil, List.sum_cons, List.sum_nil]
      at hc1 hc2
    rw [hdev0, hone, hg1] at hc1
    rw [hdev0, hone, hg2] at hc2
    exact ⟨by omega, by omega⟩

/-- A concrete two-level device tree: a root bus holding a bridge device
with one child device, plus a non-address control entry. -/
def t0 : PTree :=
  .node [("0000:00:01.0", .node [("0000:01:00.0", .leaf)]), ("power", .leaf)]

theorem t0_wf : WfT t0 := by
  refine WfT.node _ (by decide) ?_
  intro x hx
  simp only [List.mem_cons, List.not_mem_nil, or_false] at hx
  rcases hx with rfl | rfl
  · refine WfT.node _ (by decide) ?_
    intro y hy
    simp only [List.mem_cons, List.not_mem_nil, or_false] at hy
    rcases hy with rfl
    exact WfT.leaf
  · exact WfT.leaf

/-- C4 witness: the walk on the concrete tree `t0` terminates with a
duplicate-free trace and counts both devices (and their class paths)
exactly once. -/
theorem pci_bus_walk_w :
    WfT t0 ∧
    ∃ trF spF,
      pciGlobsLoopTr (treeFS sysBusPCIDir t0) (sizeT t0) []
        [["sys", "bus", "pci", "drivers", "*"]] [sysBusPCIDir] =
        some (trF, spF) ∧
      pciGlobs (treeFS sysBusPCIDir t0) (sizeT t0) = some spF ∧
      trF.Nodup ∧
      ∀ d ∈ treeDevices sysBusPCIDir t0,
        spF.count d = 1 ∧ spF.count (d ++ ["class"]) = 1 :=
  ⟨t0_wf, pci_bus_walk t0 t0_wf⟩

end Ghw
